import Mathlib

/-!
Verification development for the master-crawl repository.

The repository contains two crawler variants:
* the playwright crawler (second half of `src/server/routes/crawl.js`), which is
  the one dispatched by the job queue (`require('../crawler/playwrightCrawler')`),
  with `normalizeUrl(url, preserveHash)`, `sameDomain`, `crawlPage` and
  `crawlWebsite`;
* the puppeteer crawler (`src/server/crawler/puppeteerCrawler.js`) with its own
  `normalizeUrl` (which always keeps fragments) and an inline www-insensitive
  domain filter;
plus the sitemap tree builder `buildSitemapStructure` (`src/unnamed/part_000`).

URLs are modelled structurally: a `UrlParts` record plus a parser
`parseUrl : List Char → Option UrlParts` and serializer `serUrl` that follow the
WHATWG behaviour of JavaScript `new URL(...)` on the plain
`scheme://host[:port]/path?query#fragment` shape used throughout the crawler
(no userinfo, percent-encoding, `.`/`..` resolution, case folding or
default-port elision; a URL string outside this shape is treated as one on
which `new URL` throws).  As in the JS engine, a missing path serializes as
`/`, and an empty-but-present fragment (`...#`) is distinguished from an
absent one.
-/

namespace MasterCrawl

abbrev Chars := List Char

/-- Characters admissible in a scheme in the model (http/https in practice). -/
def isSchemeChar (c : Char) : Bool := c.isAlpha

/-- Stops the host part: `/`, `?` and `#` all end the authority in `new URL`. -/
def isHostEnd (c : Char) : Bool := c = '/' || c = '?' || c = '#'

/-- Stops the path part. -/
def isPathEnd (c : Char) : Bool := c = '?' || c = '#'

/-- Structured URL, mirroring the components JavaScript's `URL` object exposes.
`host` may still carry a `:port` suffix; `pathname` always starts with `/`;
`search` is empty or starts with `?`; `fragment` is the part after `#`
(`none` when no `#` is present, `some []` for a bare trailing `#`). -/
structure UrlParts where
  scheme : Chars
  host : Chars
  pathname : Chars
  search : Chars
  fragment : Option Chars
  deriving Repr, DecidableEq

/-!
`parseUrl` scans `scheme://host/path?search#fragment`, returning `none` where
JavaScript's `new URL` would throw (empty scheme, missing `://`, empty host).
An absent path canonicalizes to `/`, as `new URL` does for special schemes.
The scanning stages are named so theorems can speak about them.
-/

/-- The scanned scheme of a URL string. -/
def schemeOf (l : Chars) : Chars := l.takeWhile isSchemeChar

/-- Everything after the scheme. -/
def restOf (l : Chars) : Chars := l.dropWhile isSchemeChar

/-- Everything after the expected `://`. -/
def hostRegion (l : Chars) : Chars := (restOf l).drop 3

/-- The scanned host (hostname and optional port). -/
def hostOf (l : Chars) : Chars := (hostRegion l).takeWhile (fun c => !isHostEnd c)

/-- Everything from the first `/`, `?` or `#` after the host. -/
def pathRegion (l : Chars) : Chars :=
  (hostRegion l).dropWhile (fun c => !isHostEnd c)

/-- The scanned path, possibly empty. -/
def rawPath (l : Chars) : Chars := (pathRegion l).takeWhile (fun c => !isPathEnd c)

/-- The canonical pathname: an empty path serializes as `/`. -/
def pathnameOf (l : Chars) : Chars :=
  if (rawPath l).isEmpty then ['/'] else rawPath l

/-- Everything from the first `?` or `#` after the path. -/
def tailRegion (l : Chars) : Chars :=
  (pathRegion l).dropWhile (fun c => !isPathEnd c)

def parseUrl (l : Chars) : Option UrlParts :=
  if (schemeOf l).isEmpty then none
  else if (restOf l).take 3 = [':', '/', '/'] then
    if (hostOf l).isEmpty then none
    else
      let r4 := tailRegion l
      if r4.head? = some '?' then
        let srch := '?' :: r4.tail.takeWhile (fun c => c ≠ '#')
        let r6 := r4.tail.dropWhile (fun c => c ≠ '#')
        if r6.head? = some '#' then
          some ⟨schemeOf l, hostOf l, pathnameOf l, srch, some r6.tail⟩
        else some ⟨schemeOf l, hostOf l, pathnameOf l, srch, none⟩
      else if r4.head? = some '#' then
        some ⟨schemeOf l, hostOf l, pathnameOf l, [], some r4.tail⟩
      else some ⟨schemeOf l, hostOf l, pathnameOf l, [], none⟩
  else none

/-- The serialized fragment: nothing when absent, `#` plus the fragment
otherwise (also for an empty fragment, as in `new URL("https://a.com/#")`). -/
def fragSer : Option Chars → Chars
  | none => []
  | some f => '#' :: f

/-- Serializer: the `href` of a `UrlParts`. -/
def serUrl (p : UrlParts) : Chars :=
  p.scheme ++ ':' :: '/' :: '/' :: p.host ++ p.pathname ++ p.search ++
    fragSer p.fragment

/-- Well-formedness of parsed components (everything `parseUrl` can output). -/
def UrlParts.WF (p : UrlParts) : Prop :=
  p.scheme ≠ [] ∧ (∀ c ∈ p.scheme, isSchemeChar c = true) ∧
  p.host ≠ [] ∧ (∀ c ∈ p.host, isHostEnd c = false) ∧
  p.pathname.head? = some '/' ∧ (∀ c ∈ p.pathname, isPathEnd c = false) ∧
  (p.search = [] ∨ (p.search.head? = some '?' ∧ ∀ c ∈ p.search.tail, c ≠ '#'))

instance (p : UrlParts) : Decidable p.WF := by
  unfold UrlParts.WF; infer_instance

/-! ## The playwright crawler's URL normalizer (`crawl.js`, `normalizeUrl`) -/

/-- One trailing `/` removed from the serialized string: the JS
`href.replace(/\/$/, '')`. -/
def stripSlash (l : Chars) : Chars :=
  if l.getLast? = some '/' then l.dropLast else l

/-- The hash policy of `normalizeUrl(url, preserveHash)`: the JS code clears
`u.hash` unless `preserveHash` is set, the hash is non-empty and it starts
with `#/` (i.e. the fragment starts with `/`). -/
def fragKeeps (preserveHash : Bool) (fr : Option Chars) : Option Chars :=
  match fr with
  | some f => if preserveHash && f.head? = some '/' then some f else none
  | none => none

/-- `normalizeUrl` from the playwright crawler in `crawl.js`: parse, apply the
hash policy, clear the query, serialize, strip one trailing `/`; `null`
(`none`) when `new URL` throws. -/
def normalizeUrl (l : Chars) (preserveHash : Bool) : Option Chars :=
  match parseUrl l with
  | none => none
  | some p =>
    some (stripSlash (serUrl
      { p with search := [], fragment := fragKeeps preserveHash p.fragment }))

/-- `url.includes('#/')` — the hash-route test the crawler applies before
calling `normalizeUrl`. -/
def hasHashRoute : Chars → Bool
  | [] => false
  | [_] => false
  | c :: d :: rest => (c = '#' && d = '/') || hasHashRoute (d :: rest)

/-- The normalization the playwright `crawlWebsite` applies to every frontier
item and discovered link: `normalizeUrl(u, u.includes('#/'))`. -/
def crawlNormalize (l : Chars) : Option Chars :=
  normalizeUrl l (hasHashRoute l)

/-! ## The puppeteer crawler's URL normalizer (`puppeteerCrawler.js`) -/

/-- `normalizeUrl` from `puppeteerCrawler.js`: clears only the query and keeps
any fragment; on a parse failure it falls back to string splitting
(`url.split('#')`, `parts[0].split('?')[0]`, `parts[1]`). -/
def puppeteerNormalizeUrl (l : Chars) : Chars :=
  match parseUrl l with
  | some p => serUrl { p with search := [] }
  | none =>
    if l.contains '#' then
      let p0 := l.takeWhile (fun c => c ≠ '#')
      let r := (l.dropWhile (fun c => c ≠ '#')).tail
      let p1 := r.takeWhile (fun c => c ≠ '#')
      let base := p0.takeWhile (fun c => c ≠ '?')
      base ++ (if p1.isEmpty then [] else '#' :: p1)
    else l.takeWhile (fun c => c ≠ '?')

/-! ## Domain comparison -/

/-- JavaScript `new URL(x).hostname`: the host without any `:port` suffix. -/
def hostnameOf (p : UrlParts) : Chars := p.host.takeWhile (fun c => c ≠ ':')

/-- `sameDomain` from `crawl.js`: hostnames strictly equal, `false` when either
URL fails to parse. -/
def sameDomain (a b : Chars) : Bool :=
  match parseUrl a, parseUrl b with
  | some pa, some pb => hostnameOf pa = hostnameOf pb
  | _, _ => false

/-- The inline domain filter of the puppeteer `crawlWebsite`:
`linkDomain === baseDomain || linkDomain === 'www.'+baseDomain ||
'www.'+linkDomain === baseDomain`. -/
def wwwMatch (linkDomain baseDomain : Chars) : Bool :=
  linkDomain = baseDomain ||
  linkDomain = 'w' :: 'w' :: 'w' :: '.' :: baseDomain ||
  'w' :: 'w' :: 'w' :: '.' :: linkDomain = baseDomain

/-- `pat` occurs at the front of the second list. -/
def leadsWith : Chars → Chars → Bool
  | [], _ => true
  | _ :: _, [] => false
  | p :: ps, c :: cs => p = c && leadsWith ps cs

/-- JavaScript `str.includes(pat)`: `pat` occurs somewhere in `l`. -/
def hasSub (pat : Chars) : Chars → Bool
  | [] => pat.isEmpty
  | c :: cs => leadsWith pat (c :: cs) || hasSub pat cs

/-- The status classification of the puppeteer crawler's per-item error path:
`isBlocked ? 403 : isTimeout ? 408 : 0`. -/
def puppeteerErrorStatus (msg : Chars) : Nat :=
  let isTimeout := hasSub "timeout".data msg || hasSub "Timeout".data msg
  let isBlocked := hasSub "blocked".data msg || hasSub "Blocked".data msg ||
    hasSub "Access Denied".data msg || hasSub "Cloudflare".data msg
  if isBlocked then 403 else if isTimeout then 408 else 0

/-! ## Title cleanup (`crawl.js` `crawlWebsite`, lines 467-485)

`cleanedTitle` falls back to a humanized URL segment when the extracted title
is empty or an error marker.  `humanize` models the JS chain that first
replaces every hyphen by a space and then uppercases every word-start
character (the `\b\w` global replace). -/

/-- A JavaScript regex `\w` word character. -/
def isWordChar (c : Char) : Bool := c.isAlphanum || c = '_'

/-- Uppercase every word character that starts a word (`\b\w`), tracking
whether the previous character was a word character. -/
def titleCaseAux : Bool → Chars → Chars
  | _, [] => []
  | prevW, c :: rest =>
    (if isWordChar c && !prevW then c.toUpper else c) ::
      titleCaseAux (isWordChar c) rest

/-- Hyphens to spaces, then title-case word starts. -/
def humanize (l : Chars) : Chars :=
  titleCaseAux false (l.map fun c => if c = '-' then ' ' else c)

/-- JavaScript `String.prototype.split` on a single character. -/
def jsSplit (sep : Char) (l : Chars) : List Chars :=
  l.splitOn sep

/-- The URL-derived fallback title of the playwright `crawlWebsite`: prefer the
last segment of a `#/`-route, then the bare hash, then the last non-empty path
segment, with literal fallbacks `Page` and `Home`. -/
def fallbackTitle (url : Chars) : Chars :=
  match parseUrl url with
  | none => "Page".data
  | some u =>
    let frag : Chars := (u.fragment).getD []
    if frag ≠ [] ∧ frag.head? = some '/' then
      let segs := jsSplit '/' frag.tail
      match segs.getLast? with
      | some s => if (humanize s).isEmpty then "Page".data else humanize s
      | none => "Page".data
    else if frag ≠ [] then
      if (humanize frag).isEmpty then "Page".data else humanize frag
    else
      let parts := (jsSplit '/' u.pathname).filter (fun s => !s.isEmpty)
      match parts.getLast? with
      | some s => humanize s
      | none => "Home".data

/-- The playwright crawler's title cleanup: replace empty or error-marker
titles by the URL-derived fallback. -/
def cleanTitle (url title : Chars) : Chars :=
  if title.isEmpty || title = "ERROR: Error".data || title = "Error".data ||
      title = "ERROR".data
  then fallbackTitle url else title

/-! ## The playwright crawler (`crawl.js` `crawlWebsite`)

The traversal loop is modelled as a deterministic state machine.  One loop
iteration (`crawlStep`) splices up to `CONCURRENCY = 6` items off the queue
and runs them through `Promise.all`.  In the JS event loop each item's
dedup check and `visited.add` run synchronously, in batch order, before any
fetch completes, and each item's page insertion and link processing run after
its own fetch; the model therefore processes a batch in two phases and fixes
batch order as the completion order (the only effect of the real
nondeterministic completion order is the relative order of `pages` entries
and of newly queued links within one batch).  The page fetch is an oracle
`fetch : Chars → Option FetchResult`; `none` models a `crawlPage` whose
`page.goto` failed, which the source catches, returning title `"Untitled"`
and no links.  The database insert is modelled as always succeeding; the
source inserts every record with `status_code` 200. -/

structure FrontierItem where
  url : Chars
  depth : Nat
  parentUrl : Option Chars
  deriving Repr, DecidableEq

structure PageRecord where
  url : Chars
  depth : Nat
  parentUrl : Option Chars
  title : Chars
  statusCode : Nat
  deriving Repr, DecidableEq

structure FetchResult where
  title : Chars
  links : List Chars
  deriving Repr, DecidableEq

structure CrawlConfig where
  baseUrl : Chars
  maxDepth : Nat
  maxPages : Nat
  fetch : Chars → Option FetchResult

/-- `crawlPage`: on any error it returns `{ title: "Untitled", links: [] }`
instead of propagating the failure. -/
def crawlPage (fetch : Chars → Option FetchResult) (url : Chars) :
    FetchResult :=
  match fetch url with
  | some r => r
  | none => ⟨"Untitled".data, []⟩

/-- The link filter of the playwright `crawlWebsite`: normalize with hash-route
detection, keep only unvisited same-domain links while `depth < maxDepth`,
enqueue at `depth + 1` with the current page as parent. -/
def linkAdds (cfg : CrawlConfig) (visited : List Chars) (itemDepth : Nat)
    (pageUrl : Chars) : List Chars → List FrontierItem
  | [] => []
  | link :: rest =>
    match crawlNormalize link with
    | some n =>
      if visited.contains n = false ∧ sameDomain n cfg.baseUrl = true ∧
          itemDepth < cfg.maxDepth
      then ⟨n, itemDepth + 1, some pageUrl⟩ ::
        linkAdds cfg visited itemDepth pageUrl rest
      else linkAdds cfg visited itemDepth pageUrl rest
    | none => linkAdds cfg visited itemDepth pageUrl rest

/-- Phase one of a batch: for each item in order, drop it when its URL is
invalid, already visited or beyond `maxDepth`; otherwise mark it visited.
Returns the grown visited set and the surviving items with their canonical
URLs. -/
def phaseA (cfg : CrawlConfig) (visited : List Chars) :
    List FrontierItem → List Chars × List (FrontierItem × Chars)
  | [] => (visited, [])
  | item :: rest =>
    match crawlNormalize item.url with
    | none => phaseA cfg visited rest
    | some u =>
      if visited.contains u = true ∨ cfg.maxDepth < item.depth
      then phaseA cfg visited rest
      else
        let out := phaseA cfg (u :: visited) rest
        (out.1, (item, u) :: out.2)

/-- Phase two of a batch: fetch each surviving item, emit its `PageRecord`
(always with status code 200, as the source's insert does) and collect the
frontier items produced by its links. -/
def phaseB (cfg : CrawlConfig) (visited : List Chars) :
    List (FrontierItem × Chars) → List PageRecord × List FrontierItem
  | [] => ([], [])
  | (item, u) :: rest =>
    let fr := crawlPage cfg.fetch u
    let rec0 : PageRecord :=
      ⟨u, item.depth, item.parentUrl, cleanTitle u fr.title, 200⟩
    let adds := linkAdds cfg visited item.depth u fr.links
    let out := phaseB cfg visited rest
    (rec0 :: out.1, adds ++ out.2)

structure CrawlState where
  visited : List Chars
  queue : List FrontierItem
  pages : List PageRecord
  deriving Repr, DecidableEq

/-- One iteration of the `while` loop: splice up to 6 items, run both phases,
append new links to the queue and new records to `pages`. -/
def crawlStep (cfg : CrawlConfig) (st : CrawlState) : CrawlState :=
  let batch := st.queue.take 6
  let rest := st.queue.drop 6
  let av := phaseA cfg st.visited batch
  let bp := phaseB cfg av.1 av.2
  ⟨av.1, rest ++ bp.2, st.pages ++ bp.1⟩

/-- The `while (queue.length > 0 && visited.size < maxPages)` loop, with fuel
bounding the number of iterations (the source loop has no such bound; every
theorem below quantifies over the fuel). -/
def crawlWebsite (cfg : CrawlConfig) : Nat → CrawlState → CrawlState
  | 0, st => st
  | fuel + 1, st =>
    if st.queue ≠ [] ∧ st.visited.length < cfg.maxPages
    then crawlWebsite cfg fuel (crawlStep cfg st)
    else st

/-- The initial state: the seed URL at depth 0 with no parent. -/
def initState (cfg : CrawlConfig) : CrawlState :=
  ⟨[], [⟨cfg.baseUrl, 0, none⟩], []⟩

/-- A seed page with seven same-domain links, crawled with `maxPages = 2`:
exercises the batch overshoot of the page cap. -/
def overshootCfg : CrawlConfig where
  baseUrl := "https://a.com".data
  maxDepth := 1
  maxPages := 2
  fetch := fun u =>
    if u = "https://a.com".data then
      some ⟨"Home".data,
        ["https://a.com/p1".data, "https://a.com/p2".data,
         "https://a.com/p3".data, "https://a.com/p4".data,
         "https://a.com/p5".data, "https://a.com/p6".data,
         "https://a.com/p7".data]⟩
    else some ⟨"P".data, []⟩

/-- A crawl in which every fetch fails. -/
def failingCfg : CrawlConfig where
  baseUrl := "https://a.com".data
  maxDepth := 1
  maxPages := 5
  fetch := fun _ => none

/-! ## The sitemap tree builder (`buildSitemapStructure`, `src/unnamed/part_000`)

The builder consumes the flat page list, cleans titles, keys a map by URL,
runs one attachment pass (a record whose `parentUrl` is a non-empty key of
the map becomes a child of that record; every other record, root or orphan,
is pushed onto the top-level list in input order) and finally either returns
the single top-level node or synthesizes a virtual root.  The recursive
`buildNode` of the source has no termination guard; the model gives it fuel,
and the acyclicity theorems show that `pages.length + 1` fuel reaches the
fixpoint.  A node with no children carries `children = []` where the source
omits the property. -/

/-- A crawler page record as the worker hands it to the builder. -/
structure InPage where
  id : Option Chars
  url : Chars
  depth : Nat
  parentUrl : Option Chars
  title : Chars
  deriving Repr, DecidableEq

/-- A cleaned page: concrete id, cleaned title, `status: "ok"` implied. -/
structure CleanRec where
  id : Chars
  url : Chars
  title : Chars
  depth : Nat
  parentUrl : Option Chars
  deriving Repr, DecidableEq

/-- `title.startsWith('ERROR:')`. -/
def errLead : Chars → Bool
  | 'E' :: 'R' :: 'R' :: 'O' :: 'R' :: ':' :: _ => true
  | _ => false

/-- The builder's title cleanup: like the crawler's but also catching any
title that starts with `ERROR:`. -/
def cleanTitleB (url title : Chars) : Chars :=
  if title.isEmpty || title = "ERROR: Error".data || title = "Error".data ||
      title = "ERROR".data || errLead title
  then fallbackTitle url else title

/-- `cleanedPages`: ids defaulted to `page-<index>`, titles cleaned. -/
def cleanRecords (pages : List InPage) : List CleanRec :=
  pages.enum.map fun ipg =>
    ⟨ipg.2.id.getD ("page-" ++ toString ipg.1).data, ipg.2.url,
      cleanTitleB ipg.2.url ipg.2.title, ipg.2.depth, ipg.2.parentUrl⟩

/-- The homepage test of the builder's root-candidate search: path `/` and no
meaningful hash. -/
def isRootRec (r : CleanRec) : Bool :=
  match parseUrl r.url with
  | some u => u.pathname = ['/'] && (u.fragment = none || u.fragment = some [])
  | none => false

/-- `rootPage`: first homepage-like record, else the first record. -/
def rootPageOf (ps : List CleanRec) : Option CleanRec :=
  match ps.find? isRootRec with
  | some r => some r
  | none => ps.head?

/-- JavaScript truthiness of `page.parentUrl`: `null` and `''` are falsy. -/
def parentKey (r : CleanRec) : Option Chars :=
  match r.parentUrl with
  | some (c :: cs) => some (c :: cs)
  | _ => none

/-- The parent a record is attached to: its truthy `parentUrl` when that URL
is a key of the page map, otherwise nothing. -/
def attachedTo (ps : List CleanRec) (r : CleanRec) : Option Chars :=
  match parentKey r with
  | some pu => if ps.any (fun q => q.url = pu) then some pu else none
  | none => none

/-- The records pushed onto `children` of the node keyed `u`, in input order. -/
def childRecs (ps : List CleanRec) (u : Chars) : List CleanRec :=
  ps.filter (fun r => attachedTo ps r = some u)

/-- `rootNodes`: every record that was not attached to a parent, in input
order (the source pushes both the root candidate and orphans here). -/
def topLevel (ps : List CleanRec) : List CleanRec :=
  ps.filter (fun r => attachedTo ps r = none)

/-- `rootNodes` after the emptiness fallback to the first page. -/
def topsOf (ps : List CleanRec) : List CleanRec :=
  if (topLevel ps).isEmpty then ps.take 1 else topLevel ps

inductive SNode where
  | node (id url title : Chars) (depth : Nat) (status : Chars)
      (children : List SNode)
  deriving Repr

def SNode.id : SNode → Chars
  | .node i _ _ _ _ _ => i

def SNode.url : SNode → Chars
  | .node _ u _ _ _ _ => u

def SNode.title : SNode → Chars
  | .node _ _ t _ _ _ => t

def SNode.depth : SNode → Nat
  | .node _ _ _ d _ _ => d

def SNode.status : SNode → Chars
  | .node _ _ _ _ s _ => s

def SNode.children : SNode → List SNode
  | .node _ _ _ _ _ c => c

/-- The recursive node assembly (`buildNode` in the source), fuelled. -/
def buildNode (ps : List CleanRec) : Nat → CleanRec → SNode
  | 0, r =>
    .node r.id r.url (if r.title.isEmpty then r.url else r.title) r.depth
      "ok".data []
  | fuel + 1, r =>
    .node r.id r.url (if r.title.isEmpty then r.url else r.title) r.depth
      "ok".data ((childRecs ps r.url).map (buildNode ps fuel))

/-- The fixed node returned for an empty or missing record list. -/
def defaultRoot : SNode := .node "root".data [] "Root".data 0 "ok".data []

/-- `buildSitemapStructure`: `none` models a `null`/`undefined` argument. -/
def buildSitemapStructure (pagesOpt : Option (List InPage)) : SNode :=
  match pagesOpt with
  | none => defaultRoot
  | some [] => defaultRoot
  | some (pg0 :: pgr) =>
    let ps := cleanRecords (pg0 :: pgr)
    let tops := topsOf ps
    match tops with
    | [t] => buildNode ps (ps.length + 1) t
    | _ =>
      .node "root".data
        (match rootPageOf ps with
         | some r => r.url
         | none => match ps.head? with
           | some r => r.url
           | none => [])
        "Root".data 0 "ok".data (tops.map (buildNode ps (ps.length + 1)))

mutual

/-- The flat list of URLs of all nodes of a tree (preorder). -/
def nodeUrls : SNode → List Chars
  | .node _ u _ _ _ c => u :: nodeUrlsList c

/-- `nodeUrls` over a forest. -/
def nodeUrlsList : List SNode → List Chars
  | [] => []
  | n :: rest => nodeUrls n ++ nodeUrlsList rest

end

/-- The spec's tree-construction test data: a chain of three records. -/
def chainPages : List InPage :=
  [⟨none, "https://s.com".data, 0, none, "Home".data⟩,
   ⟨none, "https://s.com/a".data, 1, some "https://s.com".data, "A".data⟩,
   ⟨none, "https://s.com/a/b".data, 2, some "https://s.com/a".data, "B".data⟩]

/-- A record whose parent is absent from the input: the orphan case. -/
def orphanPages : List InPage :=
  [⟨none, "https://s.com".data, 0, none, "Home".data⟩,
   ⟨none, "https://s.com/x".data, 2, some "https://s.com/gone".data,
     "X".data⟩]

/-- Two records with `parent: null`. -/
def twoRootPages : List InPage :=
  [⟨none, "https://s.com".data, 0, none, "Home".data⟩,
   ⟨none, "https://s.com/b".data, 0, none, "B".data⟩]

/-! ## Scanning lemmas -/

theorem takeWhile_all {p : Char → Bool} {l : Chars}
    (h : ∀ a ∈ l, p a = true) : l.takeWhile p = l := by
  induction l with
  | nil => rfl
  | cons c cs ih =>
    simp [List.takeWhile_cons, h c (by simp),
      ih fun a ha => h a (by simp [ha])]

theorem dropWhile_all {p : Char → Bool} {l : Chars}
    (h : ∀ a ∈ l, p a = true) : l.dropWhile p = [] := by
  induction l with
  | nil => rfl
  | cons c cs ih =>
    simp [List.dropWhile_cons, h c (by simp),
      ih fun a ha => h a (by simp [ha])]

theorem stripSlash_app {a b : Chars} (hb : b ≠ []) :
    stripSlash (a ++ b) = a ++ stripSlash b := by
  unfold stripSlash
  rw [List.getLast?_append]
  cases hb' : b.getLast? with
  | none => exact absurd (List.getLast?_eq_none_iff.mp hb') hb
  | some x =>
    simp only [Option.or_some]
    by_cases hx : x = '/'
    · subst hx
      simp [List.dropLast_append_of_ne_nil, hb, hb']
    · simp [hx, hb']

theorem stripSlash_of_last_ne {l : Chars} (h : l.getLast? ≠ some '/') :
    stripSlash l = l := by
  unfold stripSlash
  simp [h]

/-! ## Parse and serialize agree on well-formed components -/

theorem pathnameOf_head (l : Chars) : (pathnameOf l).head? = some '/' := by
  unfold pathnameOf
  by_cases hpe : (rawPath l).isEmpty = true
  · simp [hpe]
  · rw [if_neg (by simpa using hpe)]
    cases hr : pathRegion l with
    | nil => unfold rawPath at hpe; rw [hr] at hpe; simp at hpe
    | cons a t =>
      have ha : isHostEnd a = true := by
        have := List.head?_dropWhile_not (fun c => !isHostEnd c) (hostRegion l)
        unfold pathRegion at hr
        rw [hr] at this
        simpa using this
      by_cases hpa : isPathEnd a = true
      · unfold rawPath at hpe
        rw [hr] at hpe
        simp [List.takeWhile_cons, hpa] at hpe
      · unfold rawPath
        rw [hr, List.takeWhile_cons_of_pos (by simpa using hpa)]
        have haeq : a = '/' := by
          simp only [isHostEnd] at ha
          rcases (by simpa using ha : (a = '/' ∨ a = '?') ∨ a = '#') with
            (h1 | h1) | h1
          · exact h1
          · simp [h1, isPathEnd] at hpa
          · simp [h1, isPathEnd] at hpa
        simp [haeq]

theorem pathnameOf_all (l : Chars) :
    ∀ c ∈ pathnameOf l, isPathEnd c = false := by
  unfold pathnameOf
  by_cases hpe : (rawPath l).isEmpty = true
  · intro c hc
    simp [hpe] at hc
    simp [hc, isPathEnd]
  · rw [if_neg (by simpa using hpe)]
    intro c hc
    have := List.mem_takeWhile_imp hc
    simpa using this

theorem parseUrl_wf {l : Chars} {p : UrlParts} (h : parseUrl l = some p) :
    p.WF := by
  simp only [parseUrl] at h
  split at h
  · exact absurd h (by simp)
  split at h
  case isFalse => exact absurd h (by simp)
  split at h
  · exact absurd h (by simp)
  next hsch _ hhost =>
  have hsch1 : schemeOf l ≠ [] := by simpa using hsch
  have hsch2 : ∀ c ∈ schemeOf l, isSchemeChar c = true :=
    fun c hc => List.mem_takeWhile_imp hc
  have hhost1 : hostOf l ≠ [] := by simpa using hhost
  have hhost2 : ∀ c ∈ hostOf l, isHostEnd c = false := by
    intro c hc
    have := List.mem_takeWhile_imp hc
    simpa using this
  have hsrch : ∀ r : Chars,
      ∀ c ∈ ('?' :: r.takeWhile (fun c => c ≠ '#')).tail, c ≠ '#' := by
    intro r c hc
    simp only [List.tail_cons] at hc
    have := List.mem_takeWhile_imp hc
    simpa using this
  split at h
  · split at h <;>
    · simp only [Option.some.injEq] at h
      subst h
      exact ⟨hsch1, hsch2, hhost1, hhost2, pathnameOf_head l,
        pathnameOf_all l, Or.inr ⟨rfl, hsrch _⟩⟩
  · split at h <;>
    · simp only [Option.some.injEq] at h
      subst h
      exact ⟨hsch1, hsch2, hhost1, hhost2, pathnameOf_head l,
        pathnameOf_all l, Or.inl rfl⟩

theorem serUrl_eq (p : UrlParts) :
    serUrl p = p.scheme ++ ':' :: '/' :: '/' ::
      (p.host ++ (p.pathname ++ (p.search ++ fragSer p.fragment))) := by
  simp [serUrl]

theorem scan_path {pa X : Chars} (hpa : ∀ c ∈ pa, isPathEnd c = false)
    (hX : X = [] ∨ X.head? = some '?' ∨ X.head? = some '#') :
    (pa ++ X).takeWhile (fun c => !isPathEnd c) = pa ∧
    (pa ++ X).dropWhile (fun c => !isPathEnd c) = X := by
  have hpos : ∀ c ∈ pa, (!isPathEnd c) = true := by
    intro c hc; simp [hpa c hc]
  rw [List.takeWhile_append_of_pos hpos, List.dropWhile_append_of_pos hpos]
  rcases hX with hX | hX | hX
  · subst hX; simp
  · obtain ⟨t, ht⟩ := List.head?_eq_some_iff.mp hX
    subst ht
    constructor
    · rw [List.takeWhile_cons_of_neg (by simp [isPathEnd])]
      simp
    · rw [List.dropWhile_cons_of_neg (by simp [isPathEnd])]
  · obtain ⟨t, ht⟩ := List.head?_eq_some_iff.mp hX
    subst ht
    constructor
    · rw [List.takeWhile_cons_of_neg (by simp [isPathEnd])]
      simp
    · rw [List.dropWhile_cons_of_neg (by simp [isPathEnd])]

theorem schemeOf_shape {sch Y : Chars}
    (h2 : ∀ c ∈ sch, isSchemeChar c = true) :
    schemeOf (sch ++ ':' :: Y) = sch ∧ restOf (sch ++ ':' :: Y) = ':' :: Y := by
  constructor
  · unfold schemeOf
    rw [List.takeWhile_append_of_pos h2,
      List.takeWhile_cons_of_neg (by decide)]
    simp
  · unfold restOf
    rw [List.dropWhile_append_of_pos h2,
      List.dropWhile_cons_of_neg (by decide)]

theorem hostOf_shape {l host W : Chars}
    (hreg : hostRegion l = host ++ '/' :: W)
    (h4 : ∀ c ∈ host, isHostEnd c = false) :
    hostOf l = host ∧ pathRegion l = '/' :: W := by
  have hpos : ∀ c ∈ host, (!isHostEnd c) = true := by
    intro c hc; simp [h4 c hc]
  constructor
  · unfold hostOf
    rw [hreg, List.takeWhile_append_of_pos hpos,
      List.takeWhile_cons_of_neg (by decide)]
    simp
  · unfold pathRegion
    rw [hreg, List.dropWhile_append_of_pos hpos,
      List.dropWhile_cons_of_neg (by decide)]

theorem path_shape {l pa X : Chars}
    (hpr : pathRegion l = pa ++ X) (hne : pa ≠ [])
    (hpa : ∀ c ∈ pa, isPathEnd c = false)
    (hX : X = [] ∨ X.head? = some '?' ∨ X.head? = some '#') :
    pathnameOf l = pa ∧ tailRegion l = X := by
  have hscan := scan_path hpa hX
  constructor
  · unfold pathnameOf rawPath
    rw [hpr, hscan.1]
    simp [hne]
  · unfold tailRegion
    rw [hpr, hscan.2]

theorem parseUrl_serUrl {p : UrlParts} (hp : p.WF) :
    parseUrl (serUrl p) = some p := by
  obtain ⟨sch, host, pa, se, fr⟩ := p
  obtain ⟨h1, h2, h3, h4, h5, h6, h7⟩ := hp
  simp only at h1 h2 h3 h4 h5 h6 h7
  obtain ⟨pt, hpt⟩ := List.head?_eq_some_iff.mp h5
  subst hpt
  rw [serUrl_eq]
  show parseUrl (sch ++ ':' :: '/' :: '/' ::
      (host ++ ('/' :: pt ++ (se ++ fragSer fr)))) =
    some ⟨sch, host, '/' :: pt, se, fr⟩
  obtain ⟨hsch, hrest⟩ := schemeOf_shape
    (Y := '/' :: '/' :: (host ++ ('/' :: pt ++ (se ++ fragSer fr)))) h2
  have hhreg : hostRegion (sch ++ ':' :: '/' :: '/' ::
      (host ++ ('/' :: pt ++ (se ++ fragSer fr)))) =
      host ++ '/' :: (pt ++ (se ++ fragSer fr)) := by
    unfold hostRegion
    rw [hrest]
    simp
  obtain ⟨hhost, hpreg⟩ := hostOf_shape hhreg h4
  have hXshape : (se ++ fragSer fr : Chars) = [] ∨
      (se ++ fragSer fr : Chars).head? = some '?' ∨
      (se ++ fragSer fr : Chars).head? = some '#' := by
    rcases h7 with h7 | ⟨h7, _⟩
    · subst h7
      simp only [List.nil_append]
      cases fr with
      | none => left; rfl
      | some f => right; right; rfl
    · obtain ⟨t, ht⟩ := List.head?_eq_some_iff.mp h7
      subst ht
      right; left; simp
  have hpreg' : pathRegion (sch ++ ':' :: '/' :: '/' ::
      (host ++ ('/' :: pt ++ (se ++ fragSer fr)))) =
      ('/' :: pt) ++ (se ++ fragSer fr) := by
    rw [hpreg]
    simp
  obtain ⟨hpn, htail⟩ := path_shape hpreg' (by simp) h6 hXshape
  rw [parseUrl, if_neg (by rw [hsch]; simp [h1]),
    if_pos (by rw [hrest]; rfl), if_neg (by rw [hhost]; simp [h3])]
  simp only [htail, hsch, hhost, hpn]
  rcases h7 with h7 | ⟨h7, h7all⟩
  · subst h7
    simp only [List.nil_append]
    cases fr with
    | none => simp [fragSer]
    | some f => simp [fragSer]
  · obtain ⟨st, hst⟩ := List.head?_eq_some_iff.mp h7
    subst hst
    have hstall : ∀ c ∈ st, (decide (c ≠ '#')) = true := by
      intro c hc
      simpa using h7all c (by simpa using hc)
    rw [List.cons_append]
    simp only [List.head?_cons, Option.some.injEq, if_pos rfl, List.tail_cons]
    cases fr with
    | none =>
      simp only [fragSer, List.append_nil]
      rw [takeWhile_all hstall, dropWhile_all hstall]
      simp
    | some f =>
      simp only [fragSer]
      rw [List.takeWhile_append_of_pos hstall,
        List.takeWhile_cons_of_neg (by simp),
        List.dropWhile_append_of_pos hstall,
        List.dropWhile_cons_of_neg (by simp)]
      simp

/-! ## Characterizing the playwright normalizer's output -/

/-- The fragment region of a URL string: everything after the first `#`
(`none` when there is no `#`). -/
def fragPart (l : Chars) : Option Chars :=
  if l.contains '#' then some ((l.dropWhile (fun c => c ≠ '#')).tail)
  else none

/-- The part of a URL string before any `#`. -/
def preFrag (l : Chars) : Chars := l.takeWhile (fun c => c ≠ '#')

theorem hasHashRoute_mem {l : Chars} (h : hasHashRoute l = true) : '#' ∈ l := by
  induction l with
  | nil => simp [hasHashRoute] at h
  | cons c rest ih =>
    cases rest with
    | nil => simp [hasHashRoute] at h
    | cons d rest2 =>
      rw [hasHashRoute] at h
      rcases Bool.or_eq_true_iff.mp h with h1 | h1
      · have : c = '#' := by simpa using (Bool.and_eq_true_iff.mp h1).1
        simp [this]
      · have := ih h1
        simp [this]

theorem hasHashRoute_app (a b : Chars) :
    hasHashRoute (a ++ '#' :: '/' :: b) = true := by
  induction a with
  | nil => simp [hasHashRoute]
  | cons c rest ih =>
    cases hr : rest ++ '#' :: '/' :: b with
    | nil => exact absurd hr (by simp)
    | cons d r2 =>
      simp only [List.cons_append, hr, hasHashRoute]
      rw [← hr, ih]
      simp

theorem fragPart_of_no_hash {l : Chars} (h : '#' ∉ l) : fragPart l = none := by
  unfold fragPart
  rw [if_neg]
  simpa using h

theorem fragPart_app {B r : Chars} (h : '#' ∉ B) :
    fragPart (B ++ '#' :: r) = some r := by
  unfold fragPart
  rw [if_pos (by simp)]
  have hB : ∀ c ∈ B, (decide (c ≠ '#')) = true := by
    intro c hc
    simp only [decide_eq_true_iff]
    intro hcc
    exact h (hcc ▸ hc)
  rw [List.dropWhile_append_of_pos hB, List.dropWhile_cons_of_neg (by simp)]
  simp

theorem preFrag_of_no_hash {l : Chars} (h : '#' ∉ l) : preFrag l = l := by
  unfold preFrag
  apply takeWhile_all
  intro c hc
  simp only [decide_eq_true_iff]
  intro hcc
  exact h (hcc ▸ hc)

theorem preFrag_app {B r : Chars} (h : '#' ∉ B) :
    preFrag (B ++ '#' :: r) = B := by
  unfold preFrag
  have hB : ∀ c ∈ B, (decide (c ≠ '#')) = true := by
    intro c hc
    simp only [decide_eq_true_iff]
    intro hcc
    exact h (hcc ▸ hc)
  rw [List.takeWhile_append_of_pos hB, List.takeWhile_cons_of_neg (by simp)]
  simp

/-- Unfolding `crawlNormalize` on a parseable URL. -/
theorem crawlNormalize_eq {u : Chars} {p : UrlParts} (hp : parseUrl u = some p) :
    crawlNormalize u = some (stripSlash (serUrl
      ⟨p.scheme, p.host, p.pathname, [],
        fragKeeps (hasHashRoute u) p.fragment⟩)) := by
  unfold crawlNormalize normalizeUrl
  rw [hp]

/-- The serialized URL after the normalizer's policy, with the fragment
dropped: scheme, `://`, host, pathname, nothing else. -/
theorem serUrl_no_frag (sch host pa : Chars) :
    serUrl ⟨sch, host, pa, [], none⟩ =
      (sch ++ ':' :: '/' :: '/' :: host) ++ pa := by
  simp [serUrl, fragSer]

theorem serUrl_with_frag (sch host pa f : Chars) :
    serUrl ⟨sch, host, pa, [], some f⟩ =
      ((sch ++ ':' :: '/' :: '/' :: host) ++ pa) ++ '#' :: f := by
  simp [serUrl, fragSer]

theorem fragKeeps_none (b : Bool) : fragKeeps b none = none := rfl

theorem fragKeeps_inv {b : Bool} {fr : Option Chars} {f : Chars}
    (h : fragKeeps b fr = some f) :
    b = true ∧ fr = some f ∧ f.head? = some '/' := by
  cases fr with
  | none => simp [fragKeeps] at h
  | some g =>
    simp only [fragKeeps] at h
    split at h
    · next hcond =>
      injection h with h
      subst h
      have := Bool.and_eq_true_iff.mp hcond
      exact ⟨this.1, rfl, by simpa using this.2⟩
    · exact absurd h (by simp)

/-- The base region of a normalized URL contains neither `#` nor `?`. -/
theorem no_specials_of_wf {p : UrlParts} (hp : p.WF) :
    ('#' ∉ (p.scheme ++ ':' :: '/' :: '/' :: p.host) ++ p.pathname) ∧
    ('?' ∉ (p.scheme ++ ':' :: '/' :: '/' :: p.host) ++ p.pathname) := by
  obtain ⟨-, h2, -, h4, -, h6, -⟩ := hp
  constructor
  · intro hmem
    simp only [List.mem_append, List.mem_cons] at hmem
    rcases hmem with (hmem | hmem) | hmem
    · have := h2 _ hmem
      simp [isSchemeChar] at this
    · rcases hmem with h | h | h | hmem
      iterate 3 simp at h
      have := h4 _ hmem
      simp [isHostEnd] at this
    · have := h6 _ hmem
      simp [isPathEnd] at this
  · intro hmem
    simp only [List.mem_append, List.mem_cons] at hmem
    rcases hmem with (hmem | hmem) | hmem
    · have := h2 _ hmem
      simp [isSchemeChar] at this
    · rcases hmem with h | h | h | hmem
      iterate 3 simp at h
      have := h4 _ hmem
      simp [isHostEnd] at this
    · have := h6 _ hmem
      simp [isPathEnd] at this

/-- `stripSlash` only ever removes an element. -/
theorem stripSlash_subset (l : Chars) : ∀ c ∈ stripSlash l, c ∈ l := by
  intro c hc
  unfold stripSlash at hc
  split at hc
  · exact List.dropLast_subset l hc
  · exact hc

/-- Parsing `scheme://host` (no path at all) canonicalizes the path to `/`. -/
theorem parse_hostOnly {sch host : Chars} (h1 : sch ≠ [])
    (h2 : ∀ c ∈ sch, isSchemeChar c = true) (h3 : host ≠ [])
    (h4 : ∀ c ∈ host, isHostEnd c = false) :
    parseUrl (sch ++ ':' :: '/' :: '/' :: host) =
      some ⟨sch, host, ['/'], [], none⟩ := by
  obtain ⟨hsch, hrest⟩ := schemeOf_shape (Y := '/' :: '/' :: host) h2
  have hhreg : hostRegion (sch ++ ':' :: '/' :: '/' :: host) = host := by
    unfold hostRegion
    rw [hrest]
    rfl
  have hhostpos : ∀ c ∈ host, (!isHostEnd c) = true := by
    intro c hc; simp [h4 c hc]
  have hhost : hostOf (sch ++ ':' :: '/' :: '/' :: host) = host := by
    unfold hostOf
    rw [hhreg]
    exact takeWhile_all hhostpos
  have hpreg : pathRegion (sch ++ ':' :: '/' :: '/' :: host) = [] := by
    unfold pathRegion
    rw [hhreg]
    exact dropWhile_all hhostpos
  have hpn : pathnameOf (sch ++ ':' :: '/' :: '/' :: host) = ['/'] := by
    unfold pathnameOf rawPath
    rw [hpreg]
    simp
  have htail : tailRegion (sch ++ ':' :: '/' :: '/' :: host) = [] := by
    unfold tailRegion
    rw [hpreg]
    rfl
  rw [parseUrl, if_neg (by rw [hsch]; simp [h1]),
    if_pos (by rw [hrest]; rfl), if_neg (by rw [hhost]; simp [h3])]
  simp only [htail, hsch, hhost, hpn]
  simp

/-- The no-kept-fragment case of the playwright normalizer: the result is
`scheme://host` followed by the pathname with one trailing slash removed
(so the root path `/` serializes with no trailing slash at all). -/
theorem crawlNormalize_no_frag {u : Chars} {p : UrlParts}
    (hp : parseUrl u = some p)
    (hf : fragKeeps (hasHashRoute u) p.fragment = none) :
    crawlNormalize u = some ((p.scheme ++ ':' :: '/' :: '/' :: p.host) ++
      stripSlash p.pathname) := by
  rw [crawlNormalize_eq hp, hf, serUrl_no_frag]
  obtain ⟨-, -, -, -, h5, -, -⟩ := parseUrl_wf hp
  obtain ⟨pt, hpt⟩ := List.head?_eq_some_iff.mp h5
  rw [stripSlash_app (by rw [hpt]; simp)]

/-- The kept-fragment case: the base is untouched and the fragment loses one
trailing slash (the strip lands on the end of the whole string). -/
theorem crawlNormalize_frag {u : Chars} {p : UrlParts} {f : Chars}
    (hp : parseUrl u = some p)
    (hf : fragKeeps (hasHashRoute u) p.fragment = some f) (hfe : f ≠ []) :
    crawlNormalize u = some (((p.scheme ++ ':' :: '/' :: '/' :: p.host) ++
      p.pathname) ++ '#' :: stripSlash f) := by
  rw [crawlNormalize_eq hp, hf, serUrl_with_frag]
  rw [stripSlash_app (by simp : ('#' :: f : Chars) ≠ [])]
  have : stripSlash ('#' :: f) = '#' :: stripSlash f := by
    have := stripSlash_app (a := ['#']) (b := f) hfe
    simpa using this
  rw [this]

/-- Idempotence of the composed playwright normalization on every URL whose
normalized form ends in neither `/` nor `#` (the two shapes the trailing-slash
strip can produce out of `//` paths and `#/` fragments). -/
theorem crawlNormalize_idem {u v : Chars} (h : crawlNormalize u = some v)
    (h1 : v.getLast? ≠ some '/') (h2 : v.getLast? ≠ some '#') :
    crawlNormalize v = some v := by
  cases hp : parseUrl u with
  | none =>
    unfold crawlNormalize normalizeUrl at h
    rw [hp] at h
    exact absurd h (by simp)
  | some p =>
    obtain ⟨w1, w2, w3, w4, w5, w6, -⟩ := parseUrl_wf hp
    obtain ⟨pt, hpt⟩ := List.head?_eq_some_iff.mp w5
    cases hfk : fragKeeps (hasHashRoute u) p.fragment with
    | none =>
      rw [crawlNormalize_no_frag hp hfk] at h
      injection h with h
      subst h
      rw [hpt] at h1 ⊢
      by_cases hpe : pt = []
      · subst hpe
        have hst : stripSlash ['/'] = ([] : Chars) := rfl
        rw [hst, List.append_nil]
        rw [crawlNormalize_eq (parse_hostOnly w1 w2 w3 w4)]
        simp only [fragKeeps_none]
        rw [serUrl_no_frag, stripSlash_app (by simp : (['/'] : Chars) ≠ []),
          hst, List.append_nil]
      · have hsp : stripSlash ('/' :: pt) = '/' :: stripSlash pt := by
          have := stripSlash_app (a := ['/']) (b := pt) hpe
          simpa using this
        rw [hsp] at h1 ⊢
        have hww : UrlParts.WF ⟨p.scheme, p.host, '/' :: stripSlash pt, [],
            none⟩ := by
          refine ⟨w1, w2, w3, w4, by simp, ?_, Or.inl rfl⟩
          intro c hc
          rcases List.mem_cons.mp hc with hc | hc
          · subst hc; rfl
          · exact w6 c (by
              rw [hpt]
              exact List.mem_cons_of_mem _ (stripSlash_subset pt c hc))
        have hveq : (p.scheme ++ ':' :: '/' :: '/' :: p.host) ++
            '/' :: stripSlash pt =
            serUrl ⟨p.scheme, p.host, '/' :: stripSlash pt, [], none⟩ := by
          rw [serUrl_no_frag]
        have hparse : parseUrl ((p.scheme ++ ':' :: '/' :: '/' :: p.host) ++
            '/' :: stripSlash pt) =
            some ⟨p.scheme, p.host, '/' :: stripSlash pt, [], none⟩ := by
          rw [hveq]
          exact parseUrl_serUrl hww
        rw [crawlNormalize_eq hparse]
        simp only [fragKeeps_none]
        rw [← hveq, stripSlash_of_last_ne h1]
    | some f =>
      obtain ⟨hb, hfr, hhead⟩ := fragKeeps_inv hfk
      obtain ⟨ft, hft⟩ := List.head?_eq_some_iff.mp hhead
      have hfe : f ≠ [] := by rw [hft]; simp
      rw [crawlNormalize_frag hp hfk hfe] at h
      injection h with h
      subst h
      rw [hft] at h1 h2 ⊢
      by_cases hftnil : ft = []
      · subst hftnil
        exfalso
        apply h2
        have hst : stripSlash ['/'] = ([] : Chars) := rfl
        rw [hst, show (p.scheme ++ ':' :: '/' :: '/' :: p.host ++
          p.pathname ++ ['#'] : Chars) =
          (p.scheme ++ ':' :: '/' :: '/' :: p.host ++ p.pathname) ++ ['#']
          from by simp, List.getLast?_concat]
      · have hsf : stripSlash ('/' :: ft) = '/' :: stripSlash ft := by
          have := stripSlash_app (a := ['/']) (b := ft) hftnil
          simpa using this
        rw [hsf] at h1 h2 ⊢
        by_cases hgnil : stripSlash ft = []
        · exfalso
          apply h1
          rw [hgnil, show (p.scheme ++ ':' :: '/' :: '/' :: p.host ++
            p.pathname ++ '#' :: '/' :: ([] : Chars) : Chars) =
            (p.scheme ++ ':' :: '/' :: '/' :: p.host ++ p.pathname ++
              ['#']) ++ ['/'] from by simp, List.getLast?_concat]
        · have hww : UrlParts.WF ⟨p.scheme, p.host, p.pathname, [],
              some ('/' :: stripSlash ft)⟩ :=
            ⟨w1, w2, w3, w4, w5, w6, Or.inl rfl⟩
          have hveq : ((p.scheme ++ ':' :: '/' :: '/' :: p.host) ++
              p.pathname) ++ '#' :: '/' :: stripSlash ft =
              serUrl ⟨p.scheme, p.host, p.pathname, [],
                some ('/' :: stripSlash ft)⟩ := by
            rw [serUrl_with_frag]
          have hparse : parseUrl (((p.scheme ++ ':' :: '/' :: '/' :: p.host) ++
              p.pathname) ++ '#' :: '/' :: stripSlash ft) =
              some ⟨p.scheme, p.host, p.pathname, [],
                some ('/' :: stripSlash ft)⟩ := by
            rw [hveq]
            exact parseUrl_serUrl hww
          rw [crawlNormalize_eq hparse]
          have hhr : hasHashRoute (((p.scheme ++ ':' :: '/' :: '/' ::
              p.host) ++ p.pathname) ++ '#' :: '/' :: stripSlash ft) = true :=
            hasHashRoute_app _ _
          have hfk2 : fragKeeps true (some ('/' :: stripSlash ft)) =
              some ('/' :: stripSlash ft) := by
            simp [fragKeeps]
          simp only [hhr, hfk2]
          rw [← hveq, stripSlash_of_last_ne h1]

/-- A parsed fragment really is the part of the input after its first `#`. -/
theorem parse_frag_split {u : Chars} {p : UrlParts} {g : Chars}
    (hp : parseUrl u = some p) (hg : p.fragment = some g) :
    ∃ B, u = B ++ '#' :: g ∧ '#' ∉ B := by
  have hu1 : u = schemeOf u ++ restOf u :=
    (List.takeWhile_append_dropWhile ..).symm
  have hu3 : hostRegion u = hostOf u ++ pathRegion u :=
    (List.takeWhile_append_dropWhile ..).symm
  have hu4 : pathRegion u = rawPath u ++ tailRegion u :=
    (List.takeWhile_append_dropWhile ..).symm
  have hschnoh : '#' ∉ schemeOf u := by
    intro hc
    have := List.mem_takeWhile_imp hc
    simp [isSchemeChar] at this
  have hhostnoh : '#' ∉ hostOf u := by
    intro hc
    have := List.mem_takeWhile_imp hc
    simp [isHostEnd] at this
  have hpathnoh : '#' ∉ rawPath u := by
    intro hc
    have := List.mem_takeWhile_imp hc
    simp [isPathEnd] at this
  simp only [parseUrl] at hp
  split at hp
  · exact absurd hp (by simp)
  split at hp
  case isFalse => exact absurd hp (by simp)
  next ht3 =>
  have hu2 : restOf u = [':', '/', '/'] ++ hostRegion u := by
    have := (List.take_append_drop 3 (restOf u)).symm
    rw [ht3] at this
    exact this
  split at hp
  · exact absurd hp (by simp)
  split at hp
  · next hq =>
    obtain ⟨t, htq⟩ := List.head?_eq_some_iff.mp hq
    have htt : (tailRegion u).tail = t := by rw [htq]; rfl
    split at hp
    · next hh =>
      obtain ⟨t2, hth⟩ := List.head?_eq_some_iff.mp hh
      rw [htt] at hth
      have hu5 : t = t.takeWhile (fun c => c ≠ '#') ++ '#' :: t2 := by
        conv_lhs => rw [← List.takeWhile_append_dropWhile
          (p := fun c => c ≠ '#') (l := t)]
        rw [hth]
      simp only [Option.some.injEq] at hp
      subst hp
      simp only [htt, hth, List.tail_cons, Option.some.injEq] at hg
      subst hg
      refine ⟨schemeOf u ++ [':', '/', '/'] ++ hostOf u ++ rawPath u ++
        '?' :: t.takeWhile (fun c => c ≠ '#'), ?_, ?_⟩
      · conv_lhs => rw [hu1, hu2, hu3, hu4, htq, hu5]
        simp
      · intro hc
        rcases List.mem_append.mp hc with hc | hc
        · rcases List.mem_append.mp hc with hc | hc
          · rcases List.mem_append.mp hc with hc | hc
            · rcases List.mem_append.mp hc with hc | hc
              · exact hschnoh hc
              · simp at hc
            · exact hhostnoh hc
          · exact hpathnoh hc
        · rcases List.mem_cons.mp hc with hc | hc
          · simp at hc
          · have := List.mem_takeWhile_imp hc
            simp at this
    · simp only [Option.some.injEq] at hp
      subst hp
      simp at hg
  · split at hp
    · next hh =>
      obtain ⟨t2, hth⟩ := List.head?_eq_some_iff.mp hh
      simp only [Option.some.injEq] at hp
      subst hp
      simp only [hth, List.tail_cons, Option.some.injEq] at hg
      subst hg
      refine ⟨schemeOf u ++ [':', '/', '/'] ++ hostOf u ++ rawPath u,
        ?_, ?_⟩
      · conv_lhs => rw [hu1, hu2, hu3, hu4, hth]
        simp
      · intro hc
        rcases List.mem_append.mp hc with hc | hc
        · rcases List.mem_append.mp hc with hc | hc
          · rcases List.mem_append.mp hc with hc | hc
            · exact hschnoh hc
            · simp at hc
          · exact hhostnoh hc
        · exact hpathnoh hc
    · simp only [Option.some.injEq] at hp
      subst hp
      simp at hg

/-- The puppeteer normalizer is idempotent on every URL `new URL` accepts. -/
theorem puppeteerNormalizeUrl_idem {u : Chars} {p : UrlParts}
    (hp : parseUrl u = some p) :
    puppeteerNormalizeUrl (puppeteerNormalizeUrl u) =
      puppeteerNormalizeUrl u := by
  obtain ⟨w1, w2, w3, w4, w5, w6, -⟩ := parseUrl_wf hp
  have h1 : puppeteerNormalizeUrl u =
      serUrl ⟨p.scheme, p.host, p.pathname, [], p.fragment⟩ := by
    unfold puppeteerNormalizeUrl
    rw [hp]
  rw [h1]
  unfold puppeteerNormalizeUrl
  rw [parseUrl_serUrl (p := ⟨p.scheme, p.host, p.pathname, [], p.fragment⟩)
    ⟨w1, w2, w3, w4, w5, w6, Or.inl rfl⟩]

/-- The playwright crawler's hash policy, characterized on the output string:
a fragment that does not end in `/` is retained verbatim exactly when it
begins with `/` (that is, when the hash begins with `#/`); no `?` survives
before the fragment. -/
theorem crawlNormalize_hash_policy {u : Chars} {p : UrlParts}
    (hp : parseUrl u = some p)
    (hnt : ∀ g, p.fragment = some g → g.getLast? ≠ some '/') :
    ∃ v, crawlNormalize u = some v ∧
      (∀ g, p.fragment = some g → (fragPart v = some g ↔ g.head? = some '/')) ∧
      (p.fragment = none → fragPart v = none) ∧
      '?' ∉ preFrag v := by
  obtain ⟨hno1, hno2⟩ := no_specials_of_wf (parseUrl_wf hp)
  have hnostrip : ∀ c, c ∈ (p.scheme ++ ':' :: '/' :: '/' :: p.host) ++
      stripSlash p.pathname → c ∈ (p.scheme ++ ':' :: '/' :: '/' :: p.host) ++
      p.pathname := by
    intro c hc
    rcases List.mem_append.mp hc with hc | hc
    · exact List.mem_append.mpr (Or.inl hc)
    · exact List.mem_append.mpr (Or.inr (stripSlash_subset _ c hc))
  cases hfrc : p.fragment with
  | none =>
    have hfk : fragKeeps (hasHashRoute u) p.fragment = none := by
      rw [hfrc]
      exact fragKeeps_none _
    refine ⟨_, crawlNormalize_no_frag hp hfk, ?_, ?_, ?_⟩
    · intro g hgg
      exact absurd hgg (by simp)
    · intro _
      exact fragPart_of_no_hash (fun hc => hno1 (hnostrip _ hc))
    · rw [preFrag_of_no_hash (fun hc => hno1 (hnostrip _ hc))]
      intro hc
      exact hno2 (hnostrip _ hc)
  | some g =>
    by_cases hgh : g.head? = some '/'
    · obtain ⟨gt, hgt⟩ := List.head?_eq_some_iff.mp hgh
      obtain ⟨B, hB, hBnoh⟩ := parse_frag_split hp hfrc
      have hhr : hasHashRoute u = true := by
        rw [hB, hgt]
        exact hasHashRoute_app ..
      have hfk : fragKeeps (hasHashRoute u) p.fragment = some g := by
        rw [hfrc, hhr]
        simp [fragKeeps, hgh]
      have hge : g ≠ [] := by rw [hgt]; simp
      have hss : stripSlash g = g :=
        stripSlash_of_last_ne (hnt g hfrc)
      refine ⟨_, crawlNormalize_frag hp hfk hge, ?_, ?_, ?_⟩
      · intro g2 hg2
        injection hg2 with hg2
        subst hg2
        rw [hss]
        constructor
        · intro _
          exact hgh
        · intro _
          exact fragPart_app (fun hc => hno1 (by
            rcases List.mem_append.mp hc with hc | hc
            · exact List.mem_append.mpr (Or.inl hc)
            · exact List.mem_append.mpr (Or.inr hc)))
      · intro hcc
        exact absurd hcc (by simp)
      · rw [hss, preFrag_app (fun hc => hno1 hc)]
        exact hno2
    · have hfk : fragKeeps (hasHashRoute u) p.fragment = none := by
        rw [hfrc]
        simp [fragKeeps, hgh]
      refine ⟨_, crawlNormalize_no_frag hp hfk, ?_, ?_, ?_⟩
      · intro g2 hg2
        injection hg2 with hg2
        subst hg2
        rw [fragPart_of_no_hash (fun hc => hno1 (hnostrip _ hc))]
        constructor
        · intro hcc
          exact absurd hcc (by simp)
        · intro hcc
          exact absurd hcc hgh
      · intro hcc
        exact absurd hcc (by simp)
      · rw [preFrag_of_no_hash (fun hc => hno1 (hnostrip _ hc))]
        intro hc
        exact hno2 (hnostrip _ hc)

/-- `sameDomain` is exactly hostname equality of two parseable URLs. -/
theorem sameDomain_iff (a b : Chars) :
    sameDomain a b = true ↔
      ∃ pa pb, parseUrl a = some pa ∧ parseUrl b = some pb ∧
        hostnameOf pa = hostnameOf pb := by
  unfold sameDomain
  cases ha : parseUrl a <;> cases hb : parseUrl b <;> simp [ha, hb]

/-! ## Crawler loop lemmas -/

theorem phaseA_len (cfg : CrawlConfig) :
    ∀ (items : List FrontierItem) (v : List Chars),
      ((phaseA cfg v items).1).length =
        v.length + ((phaseA cfg v items).2).length ∧
      ((phaseA cfg v items).2).length ≤ items.length := by
  intro items
  induction items with
  | nil => intro v; simp [phaseA]
  | cons item rest ih =>
    intro v
    cases hnorm : crawlNormalize item.url with
    | none =>
      simp only [phaseA, hnorm]
      exact ⟨(ih v).1, Nat.le_succ_of_le (ih v).2⟩
    | some u =>
      by_cases hc : v.contains u = true ∨ cfg.maxDepth < item.depth
      · simp only [phaseA, hnorm, if_pos hc]
        exact ⟨(ih v).1, Nat.le_succ_of_le (ih v).2⟩
      · simp only [phaseA, hnorm, if_neg hc]
        obtain ⟨ha, hb⟩ := ih (u :: v)
        simp only [List.length_cons] at ha ⊢
        omega

theorem phaseB_len (cfg : CrawlConfig) (v : List Chars) :
    ∀ passed, ((phaseB cfg v passed).1).length = passed.length := by
  intro passed
  induction passed with
  | nil => simp [phaseB]
  | cons pr rest ih =>
    unfold phaseB
    simp only [List.length_cons]
    omega

theorem crawlStep_inv (cfg : CrawlConfig) {st : CrawlState}
    (hg : st.visited.length < cfg.maxPages)
    (hpv : st.pages.length ≤ st.visited.length) :
    (crawlStep cfg st).visited.length ≤ cfg.maxPages + 5 ∧
    (crawlStep cfg st).pages.length ≤ (crawlStep cfg st).visited.length := by
  obtain ⟨hA1, hA2⟩ := phaseA_len cfg (st.queue.take 6) st.visited
  have hB := phaseB_len cfg (phaseA cfg st.visited (st.queue.take 6)).1
    (phaseA cfg st.visited (st.queue.take 6)).2
  have htake : (st.queue.take 6).length ≤ 6 := by
    simp [List.length_take]
  unfold crawlStep
  simp only [List.length_append]
  omega

theorem crawlWebsite_inv (cfg : CrawlConfig) :
    ∀ (fuel : Nat) (st : CrawlState),
      st.visited.length ≤ cfg.maxPages + 5 →
      st.pages.length ≤ st.visited.length →
      (crawlWebsite cfg fuel st).visited.length ≤ cfg.maxPages + 5 ∧
      (crawlWebsite cfg fuel st).pages.length ≤
        (crawlWebsite cfg fuel st).visited.length := by
  intro fuel
  induction fuel with
  | zero =>
    intro st h1 h2
    exact ⟨h1, h2⟩
  | succ n ih =>
    intro st h1 h2
    rw [crawlWebsite]
    by_cases hg : st.queue ≠ [] ∧ st.visited.length < cfg.maxPages
    · rw [if_pos hg]
      obtain ⟨hs1, hs2⟩ := crawlStep_inv cfg hg.2 h2
      exact ih _ hs1 hs2
    · rw [if_neg hg]
      exact ⟨h1, h2⟩

/-- One item's fetch failure: the record is still emitted (status 200 in this
crawler), no links are contributed, and the rest of the batch is processed
exactly as without it. -/
theorem phaseB_failure (cfg : CrawlConfig) (v : List Chars)
    (item : FrontierItem) (u : Chars) (rest : List (FrontierItem × Chars))
    (hf : cfg.fetch u = none) :
    phaseB cfg v ((item, u) :: rest) =
      (⟨u, item.depth, item.parentUrl, cleanTitle u "Untitled".data, 200⟩ ::
        (phaseB cfg v rest).1, (phaseB cfg v rest).2) := by
  simp only [phaseB, crawlPage, hf]
  simp [linkAdds]

theorem normalizeUrl_malformed {u : Chars} (h : parseUrl u = none)
    (b : Bool) : normalizeUrl u b = none := by
  unfold normalizeUrl
  rw [h]

/-- An item whose URL the normalizer rejects is dropped before dispatch: the
dedup set, the surviving batch and hence the emitted records are unchanged. -/
theorem phaseA_invalid (cfg : CrawlConfig) (v : List Chars)
    (item : FrontierItem) (rest : List FrontierItem)
    (h : crawlNormalize item.url = none) :
    phaseA cfg v (item :: rest) = phaseA cfg v rest := by
  simp only [phaseA, h]

/-- A discovered link the normalizer rejects is never enqueued. -/
theorem linkAdds_invalid (cfg : CrawlConfig) (v : List Chars) (d : Nat)
    (pu : Chars) (l : Chars) (rest : List Chars)
    (h : crawlNormalize l = none) :
    linkAdds cfg v d pu (l :: rest) = linkAdds cfg v d pu rest := by
  simp only [linkAdds, h]

/-! ## Sitemap builder: tree completeness machinery

The attachment pass realizes a parent map on records.  `stepU` follows one
`parentUrl` link upward; `stepIter` iterates it.  Under the claim hypotheses
(pairwise-distinct canonical URLs, and a parent always at strictly smaller
depth — the acyclicity the spec guarantees by construction of the frontier),
each record reaches exactly one top-level record, which yields that every
record occurs in the final forest exactly once. -/

/-- The record holding a given URL (the page map lookup). -/
def recOf (ps : List CleanRec) (v : Chars) : Option CleanRec :=
  ps.find? (fun r => r.url = v)

/-- One step up the parent chain, on URLs. -/
def stepU (ps : List CleanRec) (v : Chars) : Option Chars :=
  match recOf ps v with
  | some r => attachedTo ps r
  | none => none

/-- `k` steps up the parent chain. -/
def stepIter (ps : List CleanRec) : Nat → Chars → Option Chars
  | 0, v => some v
  | n + 1, v => (stepU ps v).bind (stepIter ps n)

/-- The input URLs. -/
def urlsOf (ps : List CleanRec) : List Chars := ps.map (fun r => r.url)

/-- Depth-based termination measure: the records strictly deeper than `r`. -/
def mDepth (ps : List CleanRec) (r : CleanRec) : Nat :=
  (ps.filter (fun q => r.depth < q.depth)).length

/-- The acyclicity hypothesis: a resolvable parent lies at strictly smaller
depth (spec: a record's `parentUrl` can only reference a URL visited at a
strictly smaller depth). -/
def ParentsShallower (ps : List CleanRec) : Prop :=
  ∀ r ∈ ps, ∀ q ∈ ps, r.parentUrl = some q.url → q.depth < r.depth

instance (ps : List CleanRec) : Decidable (ParentsShallower ps) := by
  unfold ParentsShallower
  infer_instance

theorem url_inj {ps : List CleanRec} (hnd : (urlsOf ps).Nodup)
    {r1 r2 : CleanRec} (h1 : r1 ∈ ps) (h2 : r2 ∈ ps)
    (h : r1.url = r2.url) : r1 = r2 := by
  induction ps with
  | nil => simp at h1
  | cons a l ih =>
    have hnd' : (urlsOf l).Nodup := by
      unfold urlsOf at hnd ⊢
      simp only [List.map_cons, List.nodup_cons] at hnd
      exact hnd.2
    have hna : a.url ∉ urlsOf l := by
      unfold urlsOf at hnd ⊢
      simp only [List.map_cons, List.nodup_cons] at hnd
      exact hnd.1
    rcases List.mem_cons.mp h1 with h1 | h1 <;>
      rcases List.mem_cons.mp h2 with h2 | h2
    · rw [h1, h2]
    · exfalso
      apply hna
      rw [← h1, h]
      exact List.mem_map.mpr ⟨r2, h2, rfl⟩
    · exfalso
      apply hna
      rw [← h2, ← h]
      exact List.mem_map.mpr ⟨r1, h1, rfl⟩
    · exact ih hnd' h1 h2

theorem recOf_self {ps : List CleanRec} (hnd : (urlsOf ps).Nodup)
    {r : CleanRec} (hr : r ∈ ps) : recOf ps r.url = some r := by
  induction ps with
  | nil => simp at hr
  | cons a l ih =>
    have hnd' : (urlsOf l).Nodup := by
      unfold urlsOf at hnd ⊢
      simp only [List.map_cons, List.nodup_cons] at hnd
      exact hnd.2
    have hna : a.url ∉ urlsOf l := by
      unfold urlsOf at hnd ⊢
      simp only [List.map_cons, List.nodup_cons] at hnd
      exact hnd.1
    rcases List.mem_cons.mp hr with hr | hr
    · subst hr
      unfold recOf
      simp
    · unfold recOf
      rw [List.find?_cons]
      have hane : (a.url = r.url) = False := by
        simp only [eq_iff_iff, iff_false]
        intro hh
        apply hna
        rw [hh]
        exact List.mem_map.mpr ⟨r, hr, rfl⟩
      split
      · next heq =>
        exfalso
        simp only [decide_eq_true_iff] at heq
        rw [hane] at heq
        exact heq
      · exact ih hnd' hr

theorem stepU_of_rec {ps : List CleanRec} (hnd : (urlsOf ps).Nodup)
    {r : CleanRec} (hr : r ∈ ps) :
    stepU ps r.url = attachedTo ps r := by
  unfold stepU
  rw [recOf_self hnd hr]

theorem attachedTo_mem {ps : List CleanRec} {r : CleanRec} {pu : Chars}
    (h : attachedTo ps r = some pu) :
    ∃ q ∈ ps, q.url = pu := by
  cases hpk : parentKey r with
  | none =>
    simp only [attachedTo, hpk] at h
    exact absurd h (by simp)
  | some pu2 =>
    simp only [attachedTo, hpk] at h
    split at h
    · next hany =>
      injection h with h
      subst h
      obtain ⟨q, hq, hq2⟩ := List.any_eq_true.mp hany
      exact ⟨q, hq, by simpa using hq2⟩
    · exact absurd h (by simp)

theorem parentKey_some {r : CleanRec} {pu : Chars}
    (h : parentKey r = some pu) : r.parentUrl = some pu := by
  unfold parentKey at h
  cases hp : r.parentUrl with
  | none => rw [hp] at h; exact absurd h (by simp)
  | some l =>
    cases l with
    | nil => rw [hp] at h; exact absurd h (by simp)
    | cons c cs =>
      rw [hp] at h
      injection h with h
      rw [h]

theorem attachedTo_parentKey {ps : List CleanRec} {r : CleanRec} {pu : Chars}
    (h : attachedTo ps r = some pu) : parentKey r = some pu := by
  cases hpk : parentKey r with
  | none =>
    simp only [attachedTo, hpk] at h
    exact absurd h (by simp)
  | some pu2 =>
    simp only [attachedTo, hpk] at h
    split at h
    · injection h with h
      rw [h]
    · exact absurd h (by simp)

theorem attachedTo_lt {ps : List CleanRec} (hps : ParentsShallower ps)
    {r : CleanRec} (hr : r ∈ ps) {pu : Chars}
    (h : attachedTo ps r = some pu) :
    ∃ q ∈ ps, q.url = pu ∧ q.depth < r.depth := by
  obtain ⟨q, hq, hqu⟩ := attachedTo_mem h
  refine ⟨q, hq, hqu, hps r hr q hq ?_⟩
  rw [hqu]
  exact parentKey_some (attachedTo_parentKey h)

theorem stepIter_zero (ps : List CleanRec) (v : Chars) :
    stepIter ps 0 v = some v := rfl

theorem stepIter_one_succ (ps : List CleanRec) (n : Nat) (v : Chars) :
    stepIter ps (n + 1) v = (stepU ps v).bind (stepIter ps n) := rfl

theorem stepIter_succ_iff {ps : List CleanRec} :
    ∀ (n : Nat) (v u : Chars),
      (stepIter ps (n + 1) v = some u ↔
        ∃ w, stepIter ps n v = some w ∧ stepU ps w = some u) := by
  intro n
  induction n with
  | zero =>
    intro v u
    rw [stepIter_one_succ]
    cases hs : stepU ps v with
    | none => simp [stepIter_zero, hs]
    | some w1 => simp [stepIter_zero, hs]
  | succ n ih =>
    intro v u
    rw [stepIter_one_succ]
    conv_rhs => rw [stepIter_one_succ]
    cases hs : stepU ps v with
    | none => simp
    | some w1 =>
      simp only [Option.some_bind]
      exact ih w1 u

theorem stepIter_add {ps : List CleanRec} :
    ∀ (a b : Nat) (v u : Chars), stepIter ps (a + b) v = some u →
      ∃ w, stepIter ps a v = some w ∧ stepIter ps b w = some u := by
  intro a
  induction a with
  | zero =>
    intro b v u h
    exact ⟨v, rfl, by simpa using h⟩
  | succ n ih =>
    intro b v u h
    have hre : n + 1 + b = (n + b) + 1 := by omega
    rw [hre, stepIter_one_succ] at h
    cases hs : stepU ps v with
    | none => rw [hs] at h; exact absurd h (by simp)
    | some w1 =>
      rw [hs] at h
      simp only [Option.some_bind] at h
      obtain ⟨w, hw, hb⟩ := ih b w1 u h
      refine ⟨w, ?_, hb⟩
      rw [stepIter_one_succ, hs]
      simpa using hw

theorem stepU_inv {ps : List CleanRec} {w x : Chars}
    (h : stepU ps w = some x) :
    ∃ cw ∈ ps, cw.url = w ∧ attachedTo ps cw = some x := by
  unfold stepU at h
  cases hrec : recOf ps w with
  | none => rw [hrec] at h; exact absurd h (by simp)
  | some cw =>
    rw [hrec] at h
    have hmem := List.mem_of_find?_eq_some hrec
    have hpred := List.find?_some hrec
    exact ⟨cw, hmem, by simpa using hpred, h⟩

theorem stepIter_lt {ps : List CleanRec} (hnd : (urlsOf ps).Nodup)
    (hps : ParentsShallower ps) :
    ∀ (k : Nat) {rv : CleanRec}, rv ∈ ps → ∀ {w : Chars},
      stepIter ps (k + 1) rv.url = some w →
      ∃ q ∈ ps, q.url = w ∧ q.depth < rv.depth := by
  intro k
  induction k with
  | zero =>
    intro rv hrv w h
    rw [stepIter_one_succ, stepU_of_rec hnd hrv] at h
    cases hat : attachedTo ps rv with
    | none => rw [hat] at h; simp at h
    | some pu =>
      rw [hat] at h
      simp only [Option.some_bind, stepIter_zero] at h
      injection h with h
      subst h
      exact attachedTo_lt hps hrv hat
  | succ k ih =>
    intro rv hrv w h
    rw [stepIter_one_succ, stepU_of_rec hnd hrv] at h
    cases hat : attachedTo ps rv with
    | none => rw [hat] at h; simp at h
    | some pu =>
      rw [hat] at h
      simp only [Option.some_bind] at h
      obtain ⟨q, hq, hqu, hqd⟩ := attachedTo_lt hps hrv hat
      obtain ⟨q2, hq2, hq2u, hq2d⟩ := ih hq (by rw [hqu]; exact h)
      exact ⟨q2, hq2, hq2u, lt_trans hq2d hqd⟩

/-- A strictly-later chain cannot land back on a child of the chain's first
record's parent at greater depth: the step through the parent forces depth
below it. -/
theorem no_cross_reach {ps : List CleanRec} (hnd : (urlsOf ps).Nodup)
    (hps : ParentsShallower ps) {r c cw : CleanRec} (hr : r ∈ ps)
    (hc : c ∈ ps) (hcw : cw ∈ ps)
    (hac : attachedTo ps c = some r.url) (hrd : r.depth < cw.depth)
    (n : Nat) (h : stepIter ps (n + 1) c.url = some cw.url) : False := by
  rw [stepIter_one_succ, stepU_of_rec hnd hc, hac] at h
  simp only [Option.some_bind] at h
  cases n with
  | zero =>
    rw [stepIter_zero] at h
    injection h with h
    have := url_inj hnd hr hcw h
    rw [this] at hrd
    exact lt_irrefl _ hrd
  | succ n2 =>
    obtain ⟨q, hq, hqu, hqd⟩ := stepIter_lt hnd hps n2 hr h
    have := url_inj hnd hq hcw hqu
    rw [this] at hqd
    omega

theorem length_filter_mono {α : Type} (p q : α → Bool) (l : List α)
    (himp : ∀ a ∈ l, p a = true → q a = true) :
    (l.filter p).length ≤ (l.filter q).length := by
  induction l with
  | nil => simp
  | cons x t ih =>
    have ih2 := ih (fun a ha hp => himp a (by simp [ha]) hp)
    by_cases hp : p x = true
    · rw [List.filter_cons_of_pos hp,
        List.filter_cons_of_pos (himp x (by simp) hp)]
      simpa using ih2
    · rw [List.filter_cons_of_neg (by simpa using hp)]
      by_cases hq : q x = true
      · rw [List.filter_cons_of_pos hq]
        simp only [List.length_cons]
        omega
      · rw [List.filter_cons_of_neg (by simpa using hq)]
        exact ih2

theorem length_filter_strict {α : Type} (p q : α → Bool) (l : List α)
    (himp : ∀ a ∈ l, p a = true → q a = true) (a0 : α) (ha0 : a0 ∈ l)
    (hq0 : q a0 = true) (hp0 : p a0 = false) :
    (l.filter p).length < (l.filter q).length := by
  induction l with
  | nil => simp at ha0
  | cons x t ih =>
    have himp2 : ∀ a ∈ t, p a = true → q a = true :=
      fun a ha hp => himp a (by simp [ha]) hp
    rcases List.mem_cons.mp ha0 with hx | hx
    · subst hx
      rw [List.filter_cons_of_neg (by simp [hp0]),
        List.filter_cons_of_pos hq0]
      have := length_filter_mono p q t himp2
      simp only [List.length_cons]
      omega
    · have ih2 := ih himp2 hx
      by_cases hp : p x = true
      · rw [List.filter_cons_of_pos hp,
          List.filter_cons_of_pos (himp x (by simp) hp)]
        simpa using ih2
      · rw [List.filter_cons_of_neg (by simpa using hp)]
        by_cases hq : q x = true
        · rw [List.filter_cons_of_pos hq]
          simp only [List.length_cons]
          omega
        · rw [List.filter_cons_of_neg (by simpa using hq)]
          exact ih2

theorem childRecs_mem {ps : List CleanRec} {c : CleanRec} {u : Chars}
    (hc : c ∈ childRecs ps u) :
    c ∈ ps ∧ attachedTo ps c = some u := by
  unfold childRecs at hc
  have h1 := List.mem_of_mem_filter hc
  have h2 := List.of_mem_filter hc
  exact ⟨h1, by simpa using h2⟩

theorem childRecs_depth {ps : List CleanRec} (hnd : (urlsOf ps).Nodup)
    (hps : ParentsShallower ps) {r c : CleanRec} (hr : r ∈ ps)
    (hc : c ∈ childRecs ps r.url) :
    c ∈ ps ∧ r.depth < c.depth ∧ mDepth ps c < mDepth ps r := by
  obtain ⟨hcm, hca⟩ := childRecs_mem hc
  obtain ⟨q, hq, hqu, hqd⟩ := attachedTo_lt hps hcm hca
  have hqr := url_inj hnd hq hr hqu
  subst hqr
  refine ⟨hcm, hqd, ?_⟩
  unfold mDepth
  exact length_filter_strict _ _ ps
    (fun a _ hp => by
      simp only [decide_eq_true_iff] at hp ⊢
      omega)
    c hcm (by simpa using hqd) (by simp)

theorem mDepth_le (ps : List CleanRec) (r : CleanRec) :
    mDepth ps r ≤ ps.length :=
  List.length_filter_le _ _

theorem count_nodeUrlsList (v : Chars) :
    ∀ (ns : List SNode),
      (nodeUrlsList ns).count v = (ns.map (fun n => (nodeUrls n).count v)).sum
  | [] => rfl
  | n :: rest => by
    simp only [nodeUrlsList, List.count_append, List.map_cons, List.sum_cons,
      count_nodeUrlsList v rest]

theorem sum_map_zero {α : Type} (l : List α) (f : α → Nat)
    (h : ∀ b ∈ l, f b = 0) : (l.map f).sum = 0 := by
  induction l with
  | nil => rfl
  | cons x t ih =>
    simp only [List.map_cons, List.sum_cons, h x (by simp),
      ih (fun b hb => h b (by simp [hb]))]

theorem sum_map_single {α : Type} (l : List α) (f : α → Nat) (a : α)
    (hnd : l.Nodup) (ha : a ∈ l) (h1 : f a = 1)
    (h0 : ∀ b ∈ l, b ≠ a → f b = 0) : (l.map f).sum = 1 := by
  induction l with
  | nil => simp at ha
  | cons x t ih =>
    have hndt : t.Nodup := (List.nodup_cons.mp hnd).2
    have hxt : x ∉ t := (List.nodup_cons.mp hnd).1
    rcases List.mem_cons.mp ha with hx | hx
    · subst hx
      simp only [List.map_cons, List.sum_cons, h1]
      rw [sum_map_zero t f (fun b hb => h0 b (by simp [hb])
        (fun hba => hxt (hba ▸ hb)))]
    · have hxa : x ≠ a := fun hxa => hxt (hxa ▸ hx)
      simp only [List.map_cons, List.sum_cons, h0 x (by simp) hxa]
      simpa using ih hndt hx (fun b hb hba => h0 b (by simp [hb]) hba)

/-- Each node of the built tree collects a URL exactly once when the URL's
record reaches the node's record along parent links, and never otherwise. -/
theorem count_buildNode {ps : List CleanRec} (hnd : (urlsOf ps).Nodup)
    (hps : ParentsShallower ps) :
    ∀ (fuel : Nat) (r : CleanRec), r ∈ ps → mDepth ps r < fuel → ∀ v,
      ((∃ k, stepIter ps k v = some r.url) →
        (nodeUrls (buildNode ps fuel r)).count v = 1) ∧
      (¬(∃ k, stepIter ps k v = some r.url) →
        (nodeUrls (buildNode ps fuel r)).count v = 0) := by
  intro fuel
  induction fuel with
  | zero =>
    intro r hr hm v
    exact absurd hm (by omega)
  | succ fuel ih =>
    intro r hr hm v
    have hnotself : ∀ k, stepIter ps (k + 1) r.url ≠ some r.url := by
      intro k hk
      obtain ⟨q, hq, hqu, hqd⟩ := stepIter_lt hnd hps k hr hk
      have hqr := url_inj hnd hq hr hqu
      rw [hqr] at hqd
      exact lt_irrefl _ hqd
    have hchildfuel : ∀ c ∈ childRecs ps r.url,
        c ∈ ps ∧ mDepth ps c < fuel := by
      intro c hc
      obtain ⟨hcm, -, hcd⟩ := childRecs_depth hnd hps hr hc
      exact ⟨hcm, by omega⟩
    have hnodup_ch : (childRecs ps r.url).Nodup :=
      (List.Nodup.of_map _ hnd).filter _
    have hexpand : nodeUrls (buildNode ps (fuel + 1) r) =
        r.url :: nodeUrlsList ((childRecs ps r.url).map (buildNode ps fuel))
      := rfl
    constructor
    · rintro ⟨k, hk⟩
      cases k with
      | zero =>
        rw [stepIter_zero] at hk
        injection hk with hk
        subst hk
        rw [hexpand, List.count_cons, count_nodeUrlsList, List.map_map]
        have hzero : ((childRecs ps r.url).map
            ((fun n => (nodeUrls n).count r.url) ∘ buildNode ps fuel)).sum
              = 0 := by
          apply sum_map_zero
          intro c hc
          obtain ⟨hcm, hcf⟩ := hchildfuel c hc
          apply (ih c hcm hcf r.url).2
          rintro ⟨j, hj⟩
          obtain ⟨hcm2, hrd, -⟩ := childRecs_depth hnd hps hr hc
          cases j with
          | zero =>
            rw [stepIter_zero] at hj
            injection hj with hj
            have := url_inj hnd hr hcm hj
            rw [this] at hrd
            exact lt_irrefl _ hrd
          | succ j2 =>
            obtain ⟨q, hq, hqu, hqd⟩ := stepIter_lt hnd hps j2 hr hj
            have := url_inj hnd hq hcm hqu
            rw [this] at hqd
            omega
        rw [hzero]
        simp
      | succ k =>
        obtain ⟨w, hw, hsw⟩ := (stepIter_succ_iff k v r.url).mp hk
        obtain ⟨cw, hcwm, hcwu, hcwa⟩ := stepU_inv hsw
        have hcwch : cw ∈ childRecs ps r.url :=
          List.mem_filter.mpr ⟨hcwm, by simp [hcwa]⟩
        have hvne : v ≠ r.url := by
          intro hv
          subst hv
          exact hnotself k hk
        obtain ⟨hcwm2, hcwd, -⟩ := childRecs_depth hnd hps hr hcwch
        rw [hexpand, List.count_cons, count_nodeUrlsList, List.map_map]
        have hone : ((childRecs ps r.url).map
            ((fun n => (nodeUrls n).count v) ∘ buildNode ps fuel)).sum
              = 1 := by
          apply sum_map_single _ _ cw hnodup_ch hcwch
          · obtain ⟨hcm, hcf⟩ := hchildfuel cw hcwch
            exact (ih cw hcm hcf v).1 ⟨k, by rw [hcwu]; exact hw⟩
          · intro c hc hcne
            obtain ⟨hcm, hcf⟩ := hchildfuel c hc
            apply (ih c hcm hcf v).2
            rintro ⟨j, hj⟩
            obtain ⟨hcm3, hcd, -⟩ := childRecs_depth hnd hps hr hc
            have hca := (childRecs_mem hc).2
            rcases lt_trichotomy j k with hjk | hjk | hjk
            · have hkdecomp : stepIter ps (j + (k - j)) v = some cw.url := by
                rw [show j + (k - j) = k by omega, hcwu]
                exact hw
              obtain ⟨w2, hw2, hrest⟩ :=
                stepIter_add j (k - j) v cw.url hkdecomp
              have hw2c : c.url = w2 := by
                rw [hj] at hw2
                injection hw2
              apply no_cross_reach hnd hps hr hcm hcwm hca hcwd (k - j - 1)
              rw [show k - j - 1 + 1 = k - j by omega, hw2c]
              exact hrest
            · subst hjk
              have hcw2 : some c.url = some w := hj.symm.trans hw
              injection hcw2 with hcw2
              apply hcne
              apply url_inj hnd hcm hcwm
              rw [hcw2, hcwu]
            · have hjdecomp : stepIter ps (k + (j - k)) v = some c.url := by
                rw [show k + (j - k) = j by omega]
                exact hj
              obtain ⟨w2, hw2, hrest⟩ :=
                stepIter_add k (j - k) v c.url hjdecomp
              have hw2c : cw.url = w2 := by
                rw [hw] at hw2
                injection hw2 with hw2
                rw [← hw2, hcwu]
              apply no_cross_reach hnd hps hr hcwm hcm hcwa hcd (j - k - 1)
              rw [show j - k - 1 + 1 = j - k by omega, hw2c]
              exact hrest
        rw [hone]
        simp [Ne.symm hvne]
    · intro hnr
      have hvne : v ≠ r.url := fun hv => hnr ⟨0, by rw [stepIter_zero, hv]⟩
      rw [hexpand, List.count_cons, count_nodeUrlsList, List.map_map]
      have hzero : ((childRecs ps r.url).map
          ((fun n => (nodeUrls n).count v) ∘ buildNode ps fuel)).sum = 0 := by
        apply sum_map_zero
        intro c hc
        obtain ⟨hcm, hcf⟩ := hchildfuel c hc
        apply (ih c hcm hcf v).2
        rintro ⟨j, hj⟩
        apply hnr
        refine ⟨j + 1, (stepIter_succ_iff j v r.url).mpr ⟨c.url, hj, ?_⟩⟩
        rw [stepU_of_rec hnd hcm, (childRecs_mem hc).2]
      rw [hzero]
      simp [Ne.symm hvne]

theorem topLevel_attached_none {ps : List CleanRec} {t : CleanRec}
    (ht : t ∈ topLevel ps) : t ∈ ps ∧ attachedTo ps t = none := by
  unfold topLevel at ht
  have h1 := List.mem_of_mem_filter ht
  have h2 := List.of_mem_filter ht
  exact ⟨h1, by simpa using h2⟩

theorem topLevel_reaches {ps : List CleanRec} (hnd : (urlsOf ps).Nodup)
    (hps : ParentsShallower ps) :
    ∀ r ∈ ps, ∃ t ∈ topLevel ps, ∃ k, stepIter ps k r.url = some t.url := by
  suffices h : ∀ (n : Nat), ∀ r ∈ ps, r.depth < n →
      ∃ t ∈ topLevel ps, ∃ k, stepIter ps k r.url = some t.url by
    intro r hr
    exact h (r.depth + 1) r hr (by omega)
  intro n
  induction n with
  | zero =>
    intro r _ hlt
    omega
  | succ n ih =>
    intro r hr hlt
    cases hat : attachedTo ps r with
    | none =>
      exact ⟨r, List.mem_filter.mpr ⟨hr, by simp [hat]⟩, 0, stepIter_zero ..⟩
    | some pu =>
      obtain ⟨q, hq, hqu, hqd⟩ := attachedTo_lt hps hr hat
      obtain ⟨t, ht, k, hk⟩ := ih q hq (by omega)
      refine ⟨t, ht, k + 1, ?_⟩
      rw [stepIter_one_succ, stepU_of_rec hnd hr, hat]
      simp only [Option.some_bind]
      rw [← hqu]
      exact hk

theorem topLevel_unique_aux {ps : List CleanRec} (hnd : (urlsOf ps).Nodup)
    {v : Chars} {t1 t2 : CleanRec}
    (h1 : t1 ∈ topLevel ps) (h2 : t2 ∈ topLevel ps)
    {j k : Nat} (hj : stepIter ps j v = some t1.url)
    (hk : stepIter ps k v = some t2.url) (hle : j ≤ k) : t1 = t2 := by
  obtain ⟨hm1, ha1⟩ := topLevel_attached_none h1
  obtain ⟨hm2, ha2⟩ := topLevel_attached_none h2
  have hdecomp : stepIter ps (j + (k - j)) v = some t2.url := by
    rw [show j + (k - j) = k by omega]
    exact hk
  obtain ⟨w, hw, hrest⟩ := stepIter_add j (k - j) v t2.url hdecomp
  have hwt : t1.url = w := by
    rw [hj] at hw
    injection hw
  rw [← hwt] at hrest
  cases hkj : k - j with
  | zero =>
    rw [hkj, stepIter_zero] at hrest
    injection hrest with hrest
    exact url_inj hnd hm1 hm2 hrest
  | succ d =>
    exfalso
    rw [hkj, stepIter_one_succ, stepU_of_rec hnd hm1, ha1] at hrest
    simp at hrest

theorem topLevel_unique {ps : List CleanRec} (hnd : (urlsOf ps).Nodup)
    {v : Chars} {t1 t2 : CleanRec}
    (h1 : t1 ∈ topLevel ps) (h2 : t2 ∈ topLevel ps)
    {j k : Nat} (hj : stepIter ps j v = some t1.url)
    (hk : stepIter ps k v = some t2.url) : t1 = t2 := by
  rcases Nat.le_total j k with hle | hle
  · exact topLevel_unique_aux hnd h1 h2 hj hk hle
  · exact (topLevel_unique_aux hnd h2 h1 hk hj hle).symm

theorem mem_nodeUrlsList {x : Chars} :
    ∀ (ns : List SNode), x ∈ nodeUrlsList ns ↔ ∃ n ∈ ns, x ∈ nodeUrls n
  | [] => by simp [nodeUrlsList]
  | n :: rest => by
    simp only [nodeUrlsList, List.mem_append, mem_nodeUrlsList rest,
      List.mem_cons]
    constructor
    · rintro (h | ⟨n2, hn2, hx⟩)
      · exact ⟨n, Or.inl rfl, h⟩
      · exact ⟨n2, Or.inr hn2, hx⟩
    · rintro ⟨n2, hn2 | hn2, hx⟩
      · subst hn2
        exact Or.inl hx
      · exact Or.inr ⟨n2, hn2, hx⟩

theorem mem_nodeUrls_buildNode {ps : List CleanRec} :
    ∀ (fuel : Nat) (r : CleanRec), r ∈ ps →
      ∀ x ∈ nodeUrls (buildNode ps fuel r), x ∈ urlsOf ps := by
  intro fuel
  induction fuel with
  | zero =>
    intro r hr x hx
    have : x = r.url := by
      simpa [buildNode, nodeUrls, nodeUrlsList] using hx
    rw [this]
    exact List.mem_map.mpr ⟨r, hr, rfl⟩
  | succ fuel ih =>
    intro r hr x hx
    rw [show nodeUrls (buildNode ps (fuel + 1) r) = r.url ::
      nodeUrlsList ((childRecs ps r.url).map (buildNode ps fuel)) from rfl]
      at hx
    rcases List.mem_cons.mp hx with hx | hx
    · rw [hx]
      exact List.mem_map.mpr ⟨r, hr, rfl⟩
    · obtain ⟨n2, hn2, hxn⟩ := (mem_nodeUrlsList _).mp hx
      obtain ⟨c, hc, hcn⟩ := List.mem_map.mp hn2
      subst hcn
      exact ih c (childRecs_mem hc).1 x hxn

/-- With enough fuel the recursive node assembly is independent of the fuel:
the attachment relation has no cycles under the claim hypotheses, so the
source's unguarded recursion terminates. -/
theorem buildNode_stable {ps : List CleanRec} (hnd : (urlsOf ps).Nodup)
    (hps : ParentsShallower ps) :
    ∀ (f1 f2 : Nat) (r : CleanRec), r ∈ ps → mDepth ps r < f1 →
      mDepth ps r < f2 → buildNode ps f1 r = buildNode ps f2 r := by
  intro f1
  induction f1 with
  | zero =>
    intro f2 r _ h1 _
    omega
  | succ f1 ih =>
    intro f2 r hr h1 h2
    cases f2 with
    | zero => omega
    | succ f2 =>
      simp only [buildNode]
      congr 1
      apply List.map_congr_left
      intro c hc
      obtain ⟨hcm, -, hcd⟩ := childRecs_depth hnd hps hr hc
      exact ih f2 c hcm (by omega) (by omega)

theorem topLevel_sub (ps : List CleanRec) : ∀ t ∈ topLevel ps, t ∈ ps :=
  fun _ ht => (topLevel_attached_none ht).1

/-- Every input URL occurs exactly once across the forest of top-level trees,
and nothing else occurs at all. -/
theorem count_forest {ps : List CleanRec} (hnd : (urlsOf ps).Nodup)
    (hps : ParentsShallower ps) (v : Chars) :
    (v ∈ urlsOf ps →
      (nodeUrlsList ((topLevel ps).map
        (buildNode ps (ps.length + 1)))).count v = 1) ∧
    (v ∉ urlsOf ps →
      (nodeUrlsList ((topLevel ps).map
        (buildNode ps (ps.length + 1)))).count v = 0) := by
  have hndt : (topLevel ps).Nodup := (List.Nodup.of_map _ hnd).filter _
  constructor
  · intro hv
    obtain ⟨rv, hrv, hrvu⟩ := List.mem_map.mp hv
    obtain ⟨t0, ht0, k0, hk0⟩ := topLevel_reaches hnd hps rv hrv
    rw [count_nodeUrlsList, List.map_map]
    apply sum_map_single _ _ t0 hndt ht0
    · apply (count_buildNode hnd hps (ps.length + 1) t0 (topLevel_sub ps t0
        ht0) (by have := mDepth_le ps t0; omega) v).1
      exact ⟨k0, by rw [← hrvu]; exact hk0⟩
    · intro t ht htne
      apply (count_buildNode hnd hps (ps.length + 1) t (topLevel_sub ps t ht)
        (by have := mDepth_le ps t; omega) v).2
      rintro ⟨j, hj⟩
      apply htne
      have hk0v : stepIter ps k0 v = some t0.url := by
        rw [← hrvu]
        exact hk0
      exact topLevel_unique hnd ht ht0 hj hk0v
  · intro hv
    rw [List.count_eq_zero]
    intro hmem
    apply hv
    obtain ⟨n2, hn2, hxn⟩ := (mem_nodeUrlsList _).mp hmem
    obtain ⟨t, ht, htn⟩ := List.mem_map.mp hn2
    subst htn
    exact mem_nodeUrls_buildNode _ t (topLevel_sub ps t ht) v hxn

theorem topLevel_ne_nil {ps : List CleanRec} (hnd : (urlsOf ps).Nodup)
    (hps : ParentsShallower ps) (hne : ps ≠ []) : topLevel ps ≠ [] := by
  obtain ⟨r, hr⟩ := List.exists_mem_of_ne_nil ps hne
  obtain ⟨t, ht, -⟩ := topLevel_reaches hnd hps r hr
  intro hcon
  rw [hcon] at ht
  simp at ht

theorem topsOf_eq_topLevel {ps : List CleanRec} (hne : topLevel ps ≠ []) :
    topsOf ps = topLevel ps := by
  unfold topsOf
  rw [if_neg (by simpa using hne)]

theorem buildNode_url (ps : List CleanRec) (fuel : Nat) (r : CleanRec) :
    (buildNode ps fuel r).url = r.url := by
  cases fuel <;> rfl

theorem buildNode_id (ps : List CleanRec) (fuel : Nat) (r : CleanRec) :
    (buildNode ps fuel r).id = r.id := by
  cases fuel <;> rfl

theorem buildNode_depth (ps : List CleanRec) (fuel : Nat) (r : CleanRec) :
    (buildNode ps fuel r).depth = r.depth := by
  cases fuel <;> rfl

/-- Evaluating the builder's final branch: a single top-level node is returned
as the root; several top-level nodes get wrapped under a synthesized root. -/
theorem buildSitemap_cases (pg0 : InPage) (pgr : List InPage) :
    (∀ t, topsOf (cleanRecords (pg0 :: pgr)) = [t] →
      buildSitemapStructure (some (pg0 :: pgr)) =
        buildNode (cleanRecords (pg0 :: pgr))
          ((cleanRecords (pg0 :: pgr)).length + 1) t) ∧
    (∀ t1 t2 tr, topsOf (cleanRecords (pg0 :: pgr)) = t1 :: t2 :: tr →
      buildSitemapStructure (some (pg0 :: pgr)) =
        SNode.node "root".data
          (match rootPageOf (cleanRecords (pg0 :: pgr)) with
           | some r => r.url
           | none =>
             match (cleanRecords (pg0 :: pgr)).head? with
             | some r => r.url
             | none => [])
          "Root".data 0 "ok".data
          ((topsOf (cleanRecords (pg0 :: pgr))).map
            (buildNode (cleanRecords (pg0 :: pgr))
              ((cleanRecords (pg0 :: pgr)).length + 1)))) := by
  constructor
  · intro t ht
    simp only [buildSitemapStructure, ht]
  · intro t1 t2 tr ht
    simp only [buildSitemapStructure, ht]

/-! ## The claims

One theorem per claim of the specification.  Corrected claims additionally
get a concrete counterexample computation refuting the claim as stated. -/

/-- The forest of trees built from the top-level records, at the fuel the
builder's acyclicity analysis shows to be sufficient. -/
def builtForest (pages : List InPage) : List SNode :=
  (topsOf (cleanRecords pages)).map
    (buildNode (cleanRecords pages) ((cleanRecords pages).length + 1))

/-- C1 (amended): with `maxPages ≥ 1`, the visited set — and with it the
emitted record list — is bounded by `maxPages + CONCURRENCY - 1 =
maxPages + 5`, at every point of the traversal (every fuel).  The claimed
bound `maxPages` itself is false: the loop guard is only checked between
batches, so the batch admitted while `|visited| = maxPages - 1` can still
add up to 6 entries. -/
theorem claim1_visited_bounded (cfg : CrawlConfig) (_hm : 1 ≤ cfg.maxPages)
    (fuel : Nat) :
    (crawlWebsite cfg fuel (initState cfg)).visited.length ≤
      cfg.maxPages + 5 ∧
    (crawlWebsite cfg fuel (initState cfg)).pages.length ≤
      cfg.maxPages + 5 := by
  obtain ⟨h1, h2⟩ := crawlWebsite_inv cfg fuel (initState cfg)
    (by simp [initState]) (by simp [initState])
  exact ⟨h1, le_trans h2 h1⟩

/-- C1 witness: the amended bound evaluated on the overshooting crawl. -/
theorem claim1_witness :
    1 ≤ overshootCfg.maxPages ∧
    (crawlWebsite overshootCfg 3 (initState overshootCfg)).visited.length ≤
      overshootCfg.maxPages + 5 ∧
    (crawlWebsite overshootCfg 3 (initState overshootCfg)).pages.length ≤
      overshootCfg.maxPages + 5 :=
  ⟨by decide, claim1_visited_bounded overshootCfg (by decide) 3⟩

/-- C1 counterexample: a seed page with seven same-domain links crawled with
`maxPages = 2` leaves seven entries in the visited set. -/
theorem claim1_counterexample :
    overshootCfg.maxPages = 2 ∧
    (crawlWebsite overshootCfg 3 (initState overshootCfg)).visited.length =
      7 ∧
    ¬((crawlWebsite overshootCfg 3
        (initState overshootCfg)).visited.length ≤ overshootCfg.maxPages) :=
  ⟨rfl, by decide, by decide⟩

/-- C2 (amended): for the ACTIVE playwright normalizer, on a parsed URL whose
fragment does not end in `/`: the output retains the fragment exactly when it
begins with `/` (the hash begins with `#/`), a fragment-free input yields a
fragment-free output, and no `?` query survives.  The claim as stated over
both normalizers is false: the puppeteer normalizer keeps every fragment. -/
theorem claim2_hash_policy {u : Chars} {p : UrlParts}
    (hp : parseUrl u = some p)
    (hnt : ∀ g, p.fragment = some g → g.getLast? ≠ some '/') :
    ∃ v, crawlNormalize u = some v ∧
      (∀ g, p.fragment = some g →
        (fragPart v = some g ↔ g.head? = some '/')) ∧
      (p.fragment = none → fragPart v = none) ∧
      '?' ∉ preFrag v :=
  crawlNormalize_hash_policy hp hnt

/-- C2 witness: the hash policy evaluated on the spec's SPA-route example. -/
theorem claim2_witness :
    parseUrl "https://a.com/#/products".data =
      some ⟨"https".data, "a.com".data, ['/'], [], some "/products".data⟩ ∧
    ∃ v, crawlNormalize "https://a.com/#/products".data = some v ∧
      (∀ g, (some "/products".data : Option Chars) = some g →
        (fragPart v = some g ↔ g.head? = some '/')) ∧
      ((some "/products".data : Option Chars) = none → fragPart v = none) ∧
      '?' ∉ preFrag v :=
  ⟨by decide,
   claim2_hash_policy (u := "https://a.com/#/products".data)
     (p := ⟨"https".data, "a.com".data, ['/'], [], some "/products".data⟩)
     (by decide) (by intro g hg; cases hg; decide)⟩

/-- C2 counterexample: the puppeteer normalizer keeps the in-page anchor
`#section`, and the playwright normalizer mutates a kept `#/` fragment whose
tail ends in `/` (the trailing-slash strip clips it). -/
theorem claim2_counterexample :
    fragPart (puppeteerNormalizeUrl "https://a.com/page#section".data) =
      some "section".data ∧
    crawlNormalize "https://a.com/#/".data =
      some "https://a.com/#".data :=
  ⟨by decide, by decide⟩

/-- C3 (amended): a failed fetch never aborts the batch — the item's record
is still emitted and it contributes zero links, the rest of the batch being
processed unchanged — but the active playwright crawler stores status 200
even then; the synthetic statuses 403 (blocked), 408 (timeout) and 0
(unknown) exist only in the inactive puppeteer crawler's error path. -/
theorem claim3_failure_isolation (cfg : CrawlConfig) (v : List Chars)
    (item : FrontierItem) (u : Chars) (rest : List (FrontierItem × Chars))
    (hf : cfg.fetch u = none) :
    phaseB cfg v ((item, u) :: rest) =
      (⟨u, item.depth, item.parentUrl, cleanTitle u "Untitled".data, 200⟩ ::
        (phaseB cfg v rest).1, (phaseB cfg v rest).2) ∧
    puppeteerErrorStatus "blocked by Cloudflare".data = 403 ∧
    puppeteerErrorStatus "Navigation Timeout Exceeded".data = 408 ∧
    puppeteerErrorStatus "connection refused".data = 0 :=
  ⟨phaseB_failure cfg v item u rest hf, by decide, by decide, by decide⟩

/-- C3 witness: the failure-isolation equation evaluated on the crawl whose
every fetch fails. -/
theorem claim3_witness :
    phaseB failingCfg []
      [(⟨"https://a.com".data, 0, none⟩, "https://a.com".data)] =
      ([⟨"https://a.com".data, 0, none,
         cleanTitle "https://a.com".data "Untitled".data, 200⟩], []) ∧
    puppeteerErrorStatus "blocked by Cloudflare".data = 403 := by
  have h := claim3_failure_isolation failingCfg []
    ⟨"https://a.com".data, 0, none⟩ "https://a.com".data [] (by decide)
  exact ⟨h.1, h.2.1⟩

/-- C3 counterexample: in the active crawler a run whose every fetch fails
still records status 200, never 403, 408 or 0. -/
theorem claim3_counterexample :
    (crawlWebsite failingCfg 2 (initState failingCfg)).pages.map
      PageRecord.statusCode = [200] ∧
    ¬((200 : Nat) = 403 ∨ (200 : Nat) = 408 ∨ (200 : Nat) = 0) :=
  ⟨by decide, by decide⟩

/-- C4 (confirmed): with pairwise-distinct canonical URLs and every resolvable
parent at strictly smaller depth (the acyclicity the spec derives from the
frontier), the fallback never fires, every input record's URL occurs exactly
once across the built forest — orphans included, attached top-level, never
dropped — no other URL occurs, and the recursion is cycle-free: any fuel
beyond `|pages| + 1` builds the same forest. -/
theorem claim4_every_record_once (pg0 : InPage) (pgr : List InPage)
    (hnd : (urlsOf (cleanRecords (pg0 :: pgr))).Nodup)
    (hps : ParentsShallower (cleanRecords (pg0 :: pgr))) :
    topsOf (cleanRecords (pg0 :: pgr)) =
      topLevel (cleanRecords (pg0 :: pgr)) ∧
    (∀ v ∈ urlsOf (cleanRecords (pg0 :: pgr)),
      (nodeUrlsList (builtForest (pg0 :: pgr))).count v = 1) ∧
    (∀ v, v ∉ urlsOf (cleanRecords (pg0 :: pgr)) →
      (nodeUrlsList (builtForest (pg0 :: pgr))).count v = 0) ∧
    (∀ f, (cleanRecords (pg0 :: pgr)).length + 1 ≤ f →
      (topsOf (cleanRecords (pg0 :: pgr))).map
        (buildNode (cleanRecords (pg0 :: pgr)) f) =
        builtForest (pg0 :: pgr)) := by
  have hne : cleanRecords (pg0 :: pgr) ≠ [] := by
    intro hcon
    have hl := congrArg List.length hcon
    simp [cleanRecords] at hl
  have hTL := topsOf_eq_topLevel (topLevel_ne_nil hnd hps hne)
  refine ⟨hTL, ?_, ?_, ?_⟩
  · intro v hv
    simpa only [builtForest, hTL] using (count_forest hnd hps v).1 hv
  · intro v hv
    simpa only [builtForest, hTL] using (count_forest hnd hps v).2 hv
  · intro f hf
    unfold builtForest
    apply List.map_congr_left
    intro t ht
    rw [hTL] at ht
    have hd := mDepth_le (cleanRecords (pg0 :: pgr)) t
    exact buildNode_stable hnd hps f _ t (topLevel_sub _ t ht) (by omega)
      (by omega)

/-- C4 witness: the exactly-once count evaluated on the orphan input. -/
theorem claim4_witness :
    (urlsOf (cleanRecords orphanPages)).Nodup ∧
    ParentsShallower (cleanRecords orphanPages) ∧
    (nodeUrlsList (builtForest orphanPages)).count
      "https://s.com/x".data = 1 :=
  ⟨by decide, by decide,
   (claim4_every_record_once
     ⟨none, "https://s.com".data, 0, none, "Home".data⟩
     [⟨none, "https://s.com/x".data, 2, some "https://s.com/gone".data,
       "X".data⟩] (by decide) (by decide)).2.1
     "https://s.com/x".data (by decide)⟩

/-- C5 (confirmed): a single top-level record's tree is returned directly;
several top-level records are wrapped under a synthesized virtual root of id
`root`, title `Root`, depth 0, whose children are exactly the top-level
trees in encounter order. -/
theorem claim5_virtual_root (pg0 : InPage) (pgr : List InPage) :
    (∀ t, topsOf (cleanRecords (pg0 :: pgr)) = [t] →
      buildSitemapStructure (some (pg0 :: pgr)) =
        buildNode (cleanRecords (pg0 :: pgr))
          ((cleanRecords (pg0 :: pgr)).length + 1) t) ∧
    (∀ t1 t2 tr, topsOf (cleanRecords (pg0 :: pgr)) = t1 :: t2 :: tr →
      (buildSitemapStructure (some (pg0 :: pgr))).id = "root".data ∧
      (buildSitemapStructure (some (pg0 :: pgr))).title = "Root".data ∧
      (buildSitemapStructure (some (pg0 :: pgr))).depth = 0 ∧
      (buildSitemapStructure (some (pg0 :: pgr))).children =
        builtForest (pg0 :: pgr) ∧
      (buildSitemapStructure (some (pg0 :: pgr))).children.map SNode.url =
        (topsOf (cleanRecords (pg0 :: pgr))).map (fun r => r.url)) := by
  refine ⟨(buildSitemap_cases pg0 pgr).1, ?_⟩
  intro t1 t2 tr ht
  rw [(buildSitemap_cases pg0 pgr).2 t1 t2 tr ht]
  refine ⟨rfl, rfl, rfl, rfl, ?_⟩
  show ((topsOf (cleanRecords (pg0 :: pgr))).map
      (buildNode (cleanRecords (pg0 :: pgr))
        ((cleanRecords (pg0 :: pgr)).length + 1))).map SNode.url = _
  rw [List.map_map]
  apply List.map_congr_left
  intro t ht2
  simp [Function.comp, buildNode_url]

/-- C5 witness: two parentless records get the virtual root wrapping both in
input order; the chain input returns its single top-level tree directly. -/
theorem claim5_witness :
    (buildSitemapStructure (some twoRootPages)).id = "root".data ∧
    (buildSitemapStructure (some twoRootPages)).children.map SNode.url =
      ["https://s.com".data, "https://s.com/b".data] ∧
    buildSitemapStructure (some chainPages) =
      buildNode (cleanRecords chainPages)
        ((cleanRecords chainPages).length + 1)
        ⟨"page-0".data, "https://s.com".data, "Home".data, 0, none⟩ := by
  have h2 := (claim5_virtual_root
    ⟨none, "https://s.com".data, 0, none, "Home".data⟩
    [⟨none, "https://s.com/b".data, 0, none, "B".data⟩]).2
    ⟨"page-0".data, "https://s.com".data, "Home".data, 0, none⟩
    ⟨"page-1".data, "https://s.com/b".data, "B".data, 0, none⟩ []
    (by decide)
  have h1 := (claim5_virtual_root
    ⟨none, "https://s.com".data, 0, none, "Home".data⟩
    [⟨none, "https://s.com/a".data, 1, some "https://s.com".data, "A".data⟩,
     ⟨none, "https://s.com/a/b".data, 2, some "https://s.com/a".data,
       "B".data⟩]).1
    ⟨"page-0".data, "https://s.com".data, "Home".data, 0, none⟩ (by decide)
  exact ⟨h2.1, h2.2.2.2.2.trans (by decide), h1⟩

/-- C6 (amended): the playwright normalizer is idempotent on every URL whose
normalized form ends in neither `/` nor `#`, and the puppeteer normalizer is
idempotent on every parseable URL.  Unconditional idempotence is false for
the playwright normalizer: the trailing-slash strip can expose another `/`
(path `//`) or a bare `#`. -/
theorem claim6_idempotent :
    (∀ u v : Chars, crawlNormalize u = some v → v.getLast? ≠ some '/' →
      v.getLast? ≠ some '#' → crawlNormalize v = some v) ∧
    (∀ (u : Chars) (p : UrlParts), parseUrl u = some p →
      puppeteerNormalizeUrl (puppeteerNormalizeUrl u) =
        puppeteerNormalizeUrl u) :=
  ⟨fun _ _ h h1 h2 => crawlNormalize_idem h h1 h2,
   fun _ _ hp => puppeteerNormalizeUrl_idem hp⟩

/-- C6 witness: idempotence evaluated; `https://a.com/x/` normalizes to
`https://a.com/x`, a fixpoint. -/
theorem claim6_witness :
    crawlNormalize "https://a.com/x".data =
      some "https://a.com/x".data ∧
    puppeteerNormalizeUrl (puppeteerNormalizeUrl "https://a.com/x".data) =
      puppeteerNormalizeUrl "https://a.com/x".data :=
  ⟨claim6_idempotent.1 "https://a.com/x/".data "https://a.com/x".data
     (by decide) (by decide) (by decide),
   claim6_idempotent.2 "https://a.com/x".data
     ⟨"https".data, "a.com".data, "/x".data, [], none⟩ (by decide)⟩

/-- C6 counterexample: `https://a.com//` normalizes to `https://a.com/`,
which normalizes further to `https://a.com`. -/
theorem claim6_counterexample :
    crawlNormalize "https://a.com//".data = some "https://a.com/".data ∧
    crawlNormalize "https://a.com/".data = some "https://a.com".data ∧
    some "https://a.com".data ≠ some "https://a.com/".data :=
  ⟨by decide, by decide, by decide⟩

/-- C7 (amended): `sameDomain` of the active crawler is strict hostname
equality on parseable URLs — it does NOT identify `www.`-prefixed hosts; the
`www.`-insensitive comparison exists only as the puppeteer crawler's inline
link filter, whose behavior `wwwMatch` captures. -/
theorem claim7_sameDomain :
    (∀ a b : Chars, sameDomain a b = true ↔
      ∃ pa pb, parseUrl a = some pa ∧ parseUrl b = some pb ∧
        hostnameOf pa = hostnameOf pb) ∧
    sameDomain "https://a.com".data "https://b.com".data = false ∧
    wwwMatch "www.a.com".data "a.com".data = true ∧
    wwwMatch "a.com".data "www.a.com".data = true :=
  ⟨sameDomain_iff, by decide, by decide, by decide⟩

/-- C7 counterexample: the active crawler's `sameDomain` rejects the pair the
claim requires it to accept. -/
theorem claim7_counterexample :
    sameDomain "https://a.com".data "https://www.a.com".data = false := by
  decide

/-- C8 (amended): the playwright normalizer strips one trailing `/` from the
END OF THE SERIALIZED STRING, with no exception for the root path: the
fragment-free output is the serialization with `stripSlash` applied, where
`stripSlash` drops a final `/` (also from the bare root path) and fixes
every string not ending in `/`.  The claimed root-path exception is false. -/
theorem claim8_trailing_slash (u : Chars) (p : UrlParts)
    (hp : parseUrl u = some p)
    (hf : fragKeeps (hasHashRoute u) p.fragment = none) :
    crawlNormalize u = some ((p.scheme ++ ':' :: '/' :: '/' :: p.host) ++
      stripSlash p.pathname) ∧
    stripSlash ['/'] = [] ∧
    stripSlash "/x/".data = "/x".data ∧
    (∀ l : Chars, l.getLast? ≠ some '/' → stripSlash l = l) :=
  ⟨crawlNormalize_no_frag hp hf, by decide, by decide,
   fun _ h => stripSlash_of_last_ne h⟩

/-- C8 witness: the strip evaluated on a non-root path. -/
theorem claim8_witness :
    crawlNormalize "https://a.com/x/".data =
      some (("https".data ++ ':' :: '/' :: '/' :: "a.com".data) ++
        stripSlash "/x/".data) ∧
    stripSlash "/x/".data = "/x".data :=
  ⟨(claim8_trailing_slash "https://a.com/x/".data
     ⟨"https".data, "a.com".data, "/x/".data, [], none⟩
     (by decide) (by decide)).1,
   by decide⟩

/-- C8 counterexample: the root path loses its slash too. -/
theorem claim8_counterexample :
    crawlNormalize "https://a.com/".data = some "https://a.com".data ∧
    ("https://a.com".data : Chars).getLast? ≠ some '/' :=
  ⟨by decide, by decide⟩

/-- C9 (confirmed): a URL the parser rejects yields no canonical URL from the
normalizer, and such a URL is dropped before dispatch: as a frontier item it
never enters the visited set or the surviving batch (hence no record), and
as a discovered link it is never enqueued. -/
theorem claim9_malformed_dropped :
    (∀ (u : Chars) (b : Bool), parseUrl u = none →
      normalizeUrl u b = none) ∧
    (∀ (cfg : CrawlConfig) (v : List Chars) (item : FrontierItem)
      (rest : List FrontierItem), crawlNormalize item.url = none →
      phaseA cfg v (item :: rest) = phaseA cfg v rest) ∧
    (∀ (cfg : CrawlConfig) (v : List Chars) (d : Nat) (pu l : Chars)
      (rest : List Chars), crawlNormalize l = none →
      linkAdds cfg v d pu (l :: rest) = linkAdds cfg v d pu rest) :=
  ⟨fun _ b h => normalizeUrl_malformed h b,
   fun cfg v item rest h => phaseA_invalid cfg v item rest h,
   fun cfg v d pu l rest h => linkAdds_invalid cfg v d pu l rest h⟩

/-- C9 witness: the drop evaluated on a malformed URL. -/
theorem claim9_witness :
    parseUrl "notaurl".data = none ∧
    normalizeUrl "notaurl".data true = none ∧
    phaseA failingCfg [] [⟨"notaurl".data, 0, none⟩] = ([], []) := by
  refine ⟨by decide,
    claim9_malformed_dropped.1 "notaurl".data true (by decide), ?_⟩
  rw [claim9_malformed_dropped.2.1 failingCfg []
    ⟨"notaurl".data, 0, none⟩ [] (by decide)]
  rfl

/-- C10 (confirmed): a missing or empty record list returns the fixed root
node with id `root`, title `Root`, depth 0, status `ok` and no children. -/
theorem claim10_empty_input :
    buildSitemapStructure none =
      SNode.node "root".data [] "Root".data 0 "ok".data [] ∧
    buildSitemapStructure (some []) =
      SNode.node "root".data [] "Root".data 0 "ok".data [] :=
  ⟨rfl, rfl⟩

end MasterCrawl
